import Mathlib

/-!
Shallow embedding of the incremental ETL pipeline
(`src/etl/incremental_loader.py`, `src/etl/transform_pipeline.py`,
`config/config_loader.py`) and proofs about it.

Timestamps (`data_hora`, `version_timestamp`, checkpoint watermarks) are
modelled as epoch seconds (`Int`); SCD2 run times as `Nat`; monetary values
(`preco`, NUMERIC(10,2)) as integer cents.
-/

/-! ## Rows of `transacoes` / `warehouse.fact_transactions_incremental`

`_fetch_increment` selects exactly the five columns
`id, id_cliente, data_hora, metodo_pagamento, version_timestamp`,
and the incremental fact table has the same five columns with `id` as
primary key, so one row type serves for both. -/

structure FactRow where
  id : Nat
  id_cliente : Nat
  data_hora : Int
  metodo_pagamento : String
  version_timestamp : Int
deriving DecidableEq, Repr

/-! ## A stable sort

`df.sort_values(["id", "version_timestamp"])` sorts on several columns,
for which pandas uses `numpy.lexsort`, a stable sort; rows that compare
equal keep their original (arrival) order.  Any stable sort computes the
same list, so we embed it as insertion sort, which the kernel can also
evaluate on concrete inputs. -/

def insertLe (le : α → α → Bool) (a : α) : List α → List α
  | [] => [a]
  | b :: l => if le a b then a :: b :: l else b :: insertLe le a l

def stableSort (le : α → α → Bool) : List α → List α
  | [] => []
  | a :: l => insertLe le a (stableSort le l)

/-- Lexicographic comparison on (`id`, `version_timestamp`), the sort key of
the deduplication step in `_merge_into_dw`. -/
def factLE (a b : FactRow) : Bool :=
  decide (a.id < b.id) ||
    (decide (a.id = b.id) && decide (a.version_timestamp ≤ b.version_timestamp))

/-- The step `drop_duplicates(subset=["id"], keep="last")`: keep the last occurrence
of every `id`, preserving the relative order of the kept rows. -/
def dropDupKeepLast : List FactRow → List FactRow
  | [] => []
  | r :: rest =>
      if rest.any (fun x => x.id == r.id) then dropDupKeepLast rest
      else r :: dropDupKeepLast rest

/-- The deduplication step of `_merge_into_dw`:
`df.sort_values(["id", "version_timestamp"]).drop_duplicates(subset=["id"], keep="last")`. -/
def dedupBatch (df : List FactRow) : List FactRow :=
  dropDupKeepLast (stableSort factLE df)

/-- One row of the `INSERT ... ON CONFLICT (id) DO UPDATE` upsert: if a row
with the same `id` exists it is overwritten with the staged values
(`SET col = EXCLUDED.col` for every non-key column), otherwise the staged
row is inserted. -/
def upsertRow (t : List FactRow) (r : FactRow) : List FactRow :=
  if t.any (fun x => x.id == r.id) then t.map (fun x => if x.id == r.id then r else x)
  else t ++ [r]

/-! ## Warehouse state touched by `_merge_into_dw`

Besides the target rows the function may create the `warehouse` schema, the
target table, and a staging table `warehouse._tmp_increment` (dropped again
at the end); all of that is part of the state so that frame conditions are
expressible. -/

structure Warehouse where
  schemaExists : Bool
  factTableExists : Bool
  tmpIncrement : Option (List FactRow)
  fact_transactions_incremental : List FactRow
deriving DecidableEq, Repr

/-- The function `_merge_into_dw(engine, df)`: early return on an empty batch; otherwise
ensure schema and target table, deduplicate the batch, stage it, upsert it
row by row (`ON CONFLICT (id) DO UPDATE`), and drop the staging table. -/
def mergeIntoDw (w : Warehouse) (df : List FactRow) : Warehouse :=
  if df.isEmpty then w
  else
    let w1 : Warehouse := { w with schemaExists := true, factTableExists := true }
    let d := dedupBatch df
    let w2 : Warehouse := { w1 with tmpIncrement := some d }
    { w2 with
      fact_transactions_incremental := d.foldl upsertRow w2.fact_transactions_incremental,
      tmpIncrement := none }

/-! ## `_fetch_increment` -/

def LATE_WINDOW_DAYS : Int := 2

def secondsPerDay : Int := 86400

/-- The computation `window_start = since - timedelta(days=LATE_WINDOW_DAYS)`. -/
def windowStart (since : Int) : Int :=
  since - LATE_WINDOW_DAYS * secondsPerDay

/-- The function `_fetch_increment(engine, since)`: all `transacoes` rows with
`data_hora >= window_start`, ordered ascending by `data_hora`. -/
def fetchIncrement (transacoes : List FactRow) (since : Int) : List FactRow :=
  stableSort (fun a b => decide (a.data_hora ≤ b.data_hora))
    (transacoes.filter (fun r => decide (windowStart since ≤ r.data_hora)))

/-! ## Checkpoint file and `run` -/

/-- The default `datetime(1970, 1, 1)` as epoch seconds, used when no checkpoint
file exists. -/
def epochStart : Int := 0

structure World where
  checkpoint : Option Int
  transacoes : List FactRow
  warehouse : Warehouse
deriving DecidableEq, Repr

/-- The function `_load_checkpoint()`: the stored `last_processed` timestamp, or epoch if
the checkpoint file does not exist. -/
def loadCheckpoint (w : World) : Int :=
  w.checkpoint.getD epochStart

/-- The value `pd.to_datetime(incr["data_hora"]).max()` for a non-empty batch. -/
def maxDataHora (l : List FactRow) : Int :=
  match l.map (fun r => r.data_hora) with
  | [] => epochStart
  | x :: xs => xs.foldl max x

inductive RunEvent where
  | loadCkpt
  | fetchIncr
  | mergeDw
  | saveCkpt
deriving DecidableEq, Repr

structure RunResult where
  world : World
  ok : Bool
  events : List RunEvent
deriving Repr

/-- The function `run()`: load checkpoint, fetch increment, merge, and advance the
checkpoint to `max(data_hora)` only when the batch was non-empty.  The two
Booleans inject failures: `fetchOk = false` models an exception raised
during extraction, `mergeOk = false` one raised at the start of the merge;
in both cases the exception propagates and nothing later in `run` executes,
so the persisted checkpoint survives unchanged. -/
def runPipeline (w : World) (fetchOk mergeOk : Bool) : RunResult :=
  let since := loadCheckpoint w
  if !fetchOk then ⟨w, false, [RunEvent.loadCkpt]⟩
  else
    let incr := fetchIncrement w.transacoes since
    if !mergeOk then ⟨w, false, [RunEvent.loadCkpt, RunEvent.fetchIncr]⟩
    else
      let w1 : World := { w with warehouse := mergeIntoDw w.warehouse incr }
      if incr.isEmpty then ⟨w1, true, [RunEvent.loadCkpt, RunEvent.fetchIncr, RunEvent.mergeDw]⟩
      else
        ⟨{ w1 with checkpoint := some (maxDataHora incr) }, true,
          [RunEvent.loadCkpt, RunEvent.fetchIncr, RunEvent.mergeDw, RunEvent.saveCkpt]⟩

/-! ## The file-level behaviour of `_save_checkpoint`

`_save_checkpoint` is a sequence of file operations; we record the trace and
give it a small semantics so that what a concurrent reader can observe is
expressible.  A file is `missing`, `truncated` (opened with mode "w" but not
yet written), or holds a completely written watermark. -/

inductive FileContent where
  | missing
  | truncated
  | value (ts : Int)
deriving DecidableEq, Repr

inductive FileOp where
  | openTruncate (path : String)
  | writeTimestamp (path : String) (ts : Int)
  | renameFile (src dst : String)
deriving DecidableEq, Repr

def CHECKPOINT_FILE : String := "checkpoints/transacoes_checkpoint.json"

/-- The file operations performed by `_save_checkpoint(ts)`:
`open(CHECKPOINT_FILE, "w")` truncates the checkpoint file in place, then
`json.dump` writes the new timestamp into it.  No temporary file and no
rename are involved. -/
def saveCheckpointOps (ts : Int) : List FileOp :=
  [FileOp.openTruncate CHECKPOINT_FILE, FileOp.writeTimestamp CHECKPOINT_FILE ts]

def applyFileOp (fs : String → FileContent) : FileOp → String → FileContent
  | FileOp.openTruncate p, q => if q = p then FileContent.truncated else fs q
  | FileOp.writeTimestamp p ts, q => if q = p then FileContent.value ts else fs q
  | FileOp.renameFile src dst, q =>
      if q = dst then fs src else if q = src then FileContent.missing else fs q

/-- Every file-system state a reader could observe while the operations run
(before, between and after the operations). -/
def fsStates (fs : String → FileContent) (ops : List FileOp) : List (String → FileContent) :=
  ops.scanl applyFileOp fs

/-- Atomic from the perspective of any reader: at every observable moment the
file holds either the old content or the completely written new value. -/
def atomicForReaders (fs : String → FileContent) (ops : List FileOp)
    (path : String) (newTs : Int) : Prop :=
  ∀ g ∈ fsStates fs ops, g path = fs path ∨ g path = FileContent.value newTs

/-- The write-to-temp-then-atomic-rename discipline: the target file is never
opened for in-place truncation, and the new content arrives via a rename
from some other path. -/
def usesTempThenRename (ops : List FileOp) (path : String) : Prop :=
  (∀ p, FileOp.openTruncate p ∈ ops → p ≠ path) ∧
    ∃ tmp, tmp ≠ path ∧ FileOp.renameFile tmp path ∈ ops

/-! ## Properties of the stable sort -/

theorem insertLe_perm (le : α → α → Bool) (a : α) (l : List α) :
    (insertLe le a l).Perm (a :: l) := by
  induction l with
  | nil => simp [insertLe]
  | cons b l ih =>
      simp only [insertLe]
      split
      · exact List.Perm.refl _
      · exact (List.Perm.cons b ih).trans (List.Perm.swap a b l)

theorem stableSort_perm (le : α → α → Bool) (l : List α) :
    (stableSort le l).Perm l := by
  induction l with
  | nil => simp [stableSort]
  | cons a l ih =>
      exact (insertLe_perm le a (stableSort le l)).trans (List.Perm.cons a ih)

theorem mem_stableSort (le : α → α → Bool) (l : List α) (x : α) :
    x ∈ stableSort le l ↔ x ∈ l :=
  (stableSort_perm le l).mem_iff

theorem pairwise_insertLe (le : α → α → Bool)
    (htrans : ∀ a b c, le a b = true → le b c = true → le a c = true)
    (htot : ∀ a b, le a b = true ∨ le b a = true) (a : α) (l : List α)
    (h : List.Pairwise (fun x y => le x y = true) l) :
    List.Pairwise (fun x y => le x y = true) (insertLe le a l) := by
  induction l with
  | nil => simp [insertLe]
  | cons b l ih =>
      rcases List.pairwise_cons.mp h with ⟨hb, hl⟩
      simp only [insertLe]
      split
      · rename_i hab
        refine List.pairwise_cons.mpr ⟨?_, h⟩
        intro x hx
        rcases hx with _ | hx
        · exact hab
        · rename_i hx
          exact htrans a b x hab (hb x hx)
      · rename_i hab
        have hba : le b a = true := by
          rcases htot a b with h1 | h1
          · exact absurd h1 hab
          · exact h1
        refine List.pairwise_cons.mpr ⟨?_, ih hl⟩
        intro x hx
        have hx' := (insertLe_perm le a l).mem_iff.mp hx
        rcases hx' with _ | hx'
        · exact hba
        · rename_i hx'
          exact hb x hx'

theorem pairwise_stableSort (le : α → α → Bool)
    (htrans : ∀ a b c, le a b = true → le b c = true → le a c = true)
    (htot : ∀ a b, le a b = true ∨ le b a = true) (l : List α) :
    List.Pairwise (fun x y => le x y = true) (stableSort le l) := by
  induction l with
  | nil => simp [stableSort]
  | cons a l ih => exact pairwise_insertLe le htrans htot a (stableSort le l) ih

theorem filter_insertLe_pos (le : α → α → Bool) (p : α → Bool)
    (hp : ∀ x y, p x = true → p y = true → le x y = true)
    (a : α) (l : List α) (ha : p a = true) :
    (insertLe le a l).filter p = a :: l.filter p := by
  induction l with
  | nil => simp [insertLe, ha]
  | cons b l ih =>
      simp only [insertLe]
      split
      · simp [List.filter_cons, ha]
      · rename_i hab
        have hb : p b = false := by
          cases hpb : p b
          · rfl
          · exact absurd (hp a b ha hpb) hab
        simp [List.filter_cons, hb, ih]

theorem filter_insertLe_neg (le : α → α → Bool) (p : α → Bool)
    (a : α) (l : List α) (ha : p a = false) :
    (insertLe le a l).filter p = l.filter p := by
  induction l with
  | nil => simp [insertLe, ha]
  | cons b l ih =>
      simp only [insertLe]
      split
      · simp [List.filter_cons, ha]
      · simp only [List.filter_cons]
        rw [ih]

/-- Stability of the sort, phrased through filters: a class of rows that all
compare `le`-equal to each other appears in the sorted output in exactly the
input (arrival) order. -/
theorem filter_stableSort_ties (le : α → α → Bool) (p : α → Bool)
    (hp : ∀ x y, p x = true → p y = true → le x y = true) (l : List α) :
    (stableSort le l).filter p = l.filter p := by
  induction l with
  | nil => simp [stableSort]
  | cons a l ih =>
      simp only [stableSort]
      cases ha : p a
      · rw [filter_insertLe_neg le p a _ ha, ih, List.filter_cons, ha]
        simp
      · rw [filter_insertLe_pos le p hp a _ ha, ih, List.filter_cons, ha]
        simp

/-! ## Looking up target rows by primary key -/

/-- The row of the target table with primary key `i` (the first one, which is
the only one when ids are unique). -/
def getById (t : List FactRow) (i : Nat) : Option FactRow :=
  t.find? (fun r => r.id == i)

/-- The PRIMARY KEY constraint of `warehouse.fact_transactions_incremental`:
distinct rows have distinct ids. -/
def uniqueIds (t : List FactRow) : Prop :=
  List.Pairwise (fun a b => a.id ≠ b.id) t

theorem mem_uniqueIds_eq {t : List FactRow} (h : uniqueIds t)
    {x z : FactRow} (hx : x ∈ t) (hz : z ∈ t) (hid : z.id = x.id) : z = x := by
  induction t with
  | nil => cases hx
  | cons a t ih =>
      have ha := (List.pairwise_cons.mp h).1
      have ht := (List.pairwise_cons.mp h).2
      cases hx with
      | head =>
          cases hz with
          | head => rfl
          | tail _ hz => exact absurd hid (ha z hz).symm
      | tail _ hx =>
          cases hz with
          | head => exact absurd hid (ha x hx)
          | tail _ hz => exact ih ht hx hz

theorem upsertRow_id_map (r x : FactRow) :
    (if x.id == r.id then r else x).id = x.id := by
  split
  · rename_i h
    exact (eq_of_beq h).symm
  · rfl

theorem uniqueIds_upsertRow {t : List FactRow} (h : uniqueIds t) (r : FactRow) :
    uniqueIds (upsertRow t r) := by
  unfold upsertRow
  split
  · refine List.pairwise_map.mpr ?_
    refine h.imp ?_
    intro a b hab
    rw [upsertRow_id_map, upsertRow_id_map]
    exact hab
  · rename_i hany
    have hall : ∀ x ∈ t, x.id ≠ r.id := by
      intro x hx heq
      exact hany (List.any_eq_true.mpr ⟨x, hx, by simpa using heq⟩)
    refine List.pairwise_append.mpr ⟨h, by simp, ?_⟩
    intro a ha b hb
    cases hb with
    | head => exact hall a ha
    | tail _ hb => cases hb

theorem comp_id_upsert (r : FactRow) (j : Nat) :
    ((fun s : FactRow => s.id == j) ∘ fun x => if x.id == r.id then r else x) =
      fun x : FactRow => x.id == j := by
  funext z
  simp only [Function.comp]
  rw [upsertRow_id_map]

theorem getById_upsertRow_self (t : List FactRow) (r : FactRow) :
    getById (upsertRow t r) r.id = some r := by
  unfold upsertRow getById
  split
  · rename_i hany
    rcases List.any_eq_true.mp hany with ⟨x, hx, hxid⟩
    rw [List.find?_map, comp_id_upsert]
    have hsome : ∃ y, List.find? (fun s => s.id == r.id) t = some y := by
      cases hfind : List.find? (fun s => s.id == r.id) t
      · exact absurd hxid (by simpa using (List.find?_eq_none.mp hfind x hx))
      · exact ⟨_, rfl⟩
    rcases hsome with ⟨y, hy⟩
    rw [hy]
    have hyid := List.find?_some hy
    show some (if y.id == r.id then r else y) = some r
    rw [if_pos (show (y.id == r.id) = true from hyid)]
  · rename_i hany
    rw [List.find?_append]
    have hnone : List.find? (fun s => s.id == r.id) t = none := by
      refine List.find?_eq_none.mpr ?_
      intro x hx hxid
      exact hany (List.any_eq_true.mpr ⟨x, hx, hxid⟩)
    rw [hnone, List.find?_cons_of_pos _ (by simp)]
    rfl

theorem getById_upsertRow_other {t : List FactRow} (r : FactRow) {j : Nat}
    (hj : j ≠ r.id) : getById (upsertRow t r) j = getById t j := by
  unfold upsertRow getById
  split
  · rw [List.find?_map, comp_id_upsert]
    cases hfind : List.find? (fun s => s.id == j) t
    · rfl
    · rename_i y
      have hyj0 := List.find?_some hfind
      have hyj : y.id = j := eq_of_beq (show (y.id == j) = true from hyj0)
      show some (if y.id == r.id then r else y) = some y
      rw [if_neg]
      intro hyr
      exact hj (hyj ▸ (eq_of_beq hyr))
  · rw [List.find?_append]
    have hr : ((r.id == j) : Bool) = false := by
      cases hrj : r.id == j
      · rfl
      · exact absurd (eq_of_beq hrj).symm hj
    cases hfind : List.find? (fun s => s.id == j) t
    · rw [List.find?_cons_of_neg _ (by simp [hr]), List.find?_nil]
      rfl
    · rfl

theorem uniqueIds_foldl_upsertRow {t : List FactRow} (h : uniqueIds t) (d : List FactRow) :
    uniqueIds (d.foldl upsertRow t) := by
  induction d generalizing t with
  | nil => exact h
  | cons x d ih => exact ih (uniqueIds_upsertRow h x)

theorem getById_foldl_upsertRow_other {d : List FactRow} {j : Nat}
    (hd : ∀ r ∈ d, r.id ≠ j) (t : List FactRow) :
    getById (d.foldl upsertRow t) j = getById t j := by
  induction d generalizing t with
  | nil => rfl
  | cons x d ih =>
      rw [List.foldl_cons, ih (fun r hr => hd r (List.mem_cons_of_mem x hr))]
      exact getById_upsertRow_other x (fun hjx => hd x (List.mem_cons_self x d) hjx.symm)

theorem getById_foldl_upsertRow_mem {d : List FactRow}
    (hd : (d.map (fun r => r.id)).Nodup) {r : FactRow} (hr : r ∈ d) (t : List FactRow) :
    getById (d.foldl upsertRow t) r.id = some r := by
  induction d generalizing t with
  | nil => cases hr
  | cons x d ih =>
      rw [List.map_cons, List.nodup_cons] at hd
      rw [List.foldl_cons]
      cases hr with
      | head =>
          rw [getById_foldl_upsertRow_other (j := r.id) ?hother (upsertRow t r)]
          · exact getById_upsertRow_self t r
          case hother =>
            intro s hs hsid
            exact hd.1 (hsid ▸ List.mem_map_of_mem (fun q => q.id) hs)
      | tail _ hr => exact ih hd.2 hr (upsertRow t x)

theorem foldl_upsertRow_fixed {t : List FactRow} (h : uniqueIds t) {d : List FactRow}
    (hd : ∀ r ∈ d, getById t r.id = some r) :
    d.foldl upsertRow t = t := by
  induction d with
  | nil => rfl
  | cons x d ih =>
      have hx := hd x (List.mem_cons_self x d)
      have hxt : upsertRow t x = t := by
        unfold upsertRow
        have hmem : x ∈ t := List.mem_of_find?_eq_some hx
        have hany : t.any (fun s => s.id == x.id) = true :=
          List.any_eq_true.mpr ⟨x, hmem, by simp⟩
        rw [if_pos hany]
        have hmap : ∀ z ∈ t, (if z.id == x.id then x else z) = z := by
          intro z hz
          cases hzx : z.id == x.id
          · simp
          · have hz_eq : z = x := mem_uniqueIds_eq h hmem hz (eq_of_beq hzx)
            simp [hz_eq]
        calc t.map (fun z => if z.id == x.id then x else z)
            = t.map id := List.map_congr_left hmap
          _ = t := List.map_id t
      rw [List.foldl_cons, hxt]
      exact ih (fun r hr => hd r (List.mem_cons_of_mem x hr))

/-! ## Properties of the deduplication step -/

theorem mem_of_mem_dropDupKeepLast {l : List FactRow} {r : FactRow}
    (h : r ∈ dropDupKeepLast l) : r ∈ l := by
  induction l with
  | nil => cases h
  | cons x l ih =>
      unfold dropDupKeepLast at h
      split at h
      · exact List.mem_cons_of_mem x (ih h)
      · cases h with
        | head => exact List.mem_cons_self _ _
        | tail _ h => exact List.mem_cons_of_mem _ (ih h)

theorem nodup_ids_dropDupKeepLast (l : List FactRow) :
    ((dropDupKeepLast l).map (fun r => r.id)).Nodup := by
  induction l with
  | nil => simp [dropDupKeepLast]
  | cons x l ih =>
      unfold dropDupKeepLast
      split
      · exact ih
      · rename_i hany
        rw [List.map_cons, List.nodup_cons]
        refine ⟨?_, ih⟩
        intro hmem
        rcases List.mem_map.mp hmem with ⟨y, hy, hyid⟩
        have hyl := mem_of_mem_dropDupKeepLast hy
        exact hany (List.any_eq_true.mpr ⟨y, hyl, by simp [hyid]⟩)

theorem nodup_ids_dedupBatch (df : List FactRow) :
    ((dedupBatch df).map (fun r => r.id)).Nodup :=
  nodup_ids_dropDupKeepLast _

theorem mem_of_mem_dedupBatch {df : List FactRow} {r : FactRow}
    (h : r ∈ dedupBatch df) : r ∈ df :=
  (mem_stableSort factLE df r).mp (mem_of_mem_dropDupKeepLast h)

/-- What `drop_duplicates(subset=["id"], keep="last")` leaves for one id: the
last occurrence of that id, if any. -/
theorem filter_dropDupKeepLast (l : List FactRow) (i : Nat) :
    (dropDupKeepLast l).filter (fun r => r.id == i) =
      ((l.filter (fun r => r.id == i)).getLast?).toList := by
  induction l with
  | nil => simp [dropDupKeepLast]
  | cons x l ih =>
      unfold dropDupKeepLast
      split
      · rename_i hany
        rw [ih, List.filter_cons]
        split
        · rename_i hxi
          have hxid : x.id = i := eq_of_beq hxi
          have hne : l.filter (fun r => r.id == i) ≠ [] := by
            rcases List.any_eq_true.mp hany with ⟨y, hy, hyx⟩
            have hyi : y.id = i := by rw [eq_of_beq hyx, hxid]
            intro hnil
            have : y ∈ l.filter (fun r => r.id == i) :=
              List.mem_filter.mpr ⟨hy, by simp [hyi]⟩
            rw [hnil] at this
            cases this
          rcases List.exists_cons_of_ne_nil hne with ⟨b, lb, hbl⟩
          rw [hbl, List.getLast?_cons_cons]
        · rfl
      · rename_i hany
        rw [List.filter_cons]
        cases hxi : (x.id == i :)
        · rw [if_neg (by simp [hxi]), List.filter_cons, if_neg (by simp [hxi]), ih]
        · rw [if_pos (by simp [hxi]), List.filter_cons, if_pos (by simp [hxi])]
          have hnil : l.filter (fun r => r.id == i) = [] := by
            rw [List.filter_eq_nil_iff]
            intro y hy hyi
            have : x.id = y.id := by rw [eq_of_beq hxi, eq_of_beq hyi]
            exact hany (List.any_eq_true.mpr ⟨y, hy, by simp [this]⟩)
          have hnil2 : (dropDupKeepLast l).filter (fun r => r.id == i) = [] := by
            rw [List.filter_eq_nil_iff]
            intro y hy hyi
            have : y ∈ l.filter (fun r => r.id == i) :=
              List.mem_filter.mpr ⟨mem_of_mem_dropDupKeepLast hy, hyi⟩
            rw [hnil] at this
            cases this
          rw [hnil2, hnil]
          rfl

/-! ## Maxima of integer lists (`.max()` of a pandas column) -/

def maxOfList : List Int → Int
  | [] => 0
  | x :: xs => xs.foldl max x

theorem le_foldl_max (l : List Int) (a : Int) : a ≤ l.foldl max a := by
  induction l generalizing a with
  | nil => exact le_refl a
  | cons y l ih => exact le_trans (le_max_left a y) (ih (max a y))

theorem mem_le_foldl_max {l : List Int} {x : Int} (hx : x ∈ l) (a : Int) :
    x ≤ l.foldl max a := by
  induction l generalizing a with
  | nil => cases hx
  | cons y l ih =>
      cases hx with
      | head => exact le_trans (le_max_right a x) (le_foldl_max l (max a x))
      | tail _ hx => exact ih hx (max a y)

theorem foldl_max_mem (l : List Int) (a : Int) : l.foldl max a = a ∨ l.foldl max a ∈ l := by
  induction l generalizing a with
  | nil => exact Or.inl rfl
  | cons y l ih =>
      rcases ih (max a y) with h | h
      · rcases max_choice a y with hm | hm
        · exact Or.inl (by rw [List.foldl_cons, h, hm])
        · refine Or.inr ?_
          rw [List.foldl_cons, h, hm]
          exact List.mem_cons_self _ _
      · exact Or.inr (List.mem_cons_of_mem y h)

theorem mem_le_maxOfList {l : List Int} {x : Int} (hx : x ∈ l) : x ≤ maxOfList l := by
  cases l with
  | nil => cases hx
  | cons y l =>
      cases hx with
      | head => exact le_foldl_max l x
      | tail _ hx => exact mem_le_foldl_max hx y

theorem maxOfList_mem {l : List Int} (h : l ≠ []) : maxOfList l ∈ l := by
  cases l with
  | nil => exact absurd rfl h
  | cons y l =>
      show l.foldl max y ∈ y :: l
      rcases foldl_max_mem l y with h1 | h1
      · rw [h1]; exact List.mem_cons_self _ _
      · exact List.mem_cons_of_mem y h1

/-- The maximum `version_timestamp` among the rows of a batch with a given id. -/
def maxVersionFor (df : List FactRow) (i : Nat) : Int :=
  maxOfList ((df.filter (fun r => r.id == i)).map (fun r => r.version_timestamp))

/-! ## Generic facts about `getLast?` -/

theorem getLast?_mem' : ∀ {l : List α} {r : α}, l.getLast? = some r → r ∈ l
  | [], _, h => by cases h
  | [a], r, h => by
      simp only [List.getLast?_singleton, Option.some.injEq] at h
      rw [h]; exact List.mem_cons_self _ _
  | a :: b :: l, r, h => by
      rw [List.getLast?_cons_cons] at h
      exact List.mem_cons_of_mem a (getLast?_mem' h)

theorem pairwise_getLast {R : α → α → Prop} :
    ∀ {l : List α} {r : α}, List.Pairwise R l → l.getLast? = some r →
      ∀ x ∈ l, x = r ∨ R x r
  | [], _, _, h, _ => by cases h
  | [a], r, _, h, x => by
      simp only [List.getLast?_singleton, Option.some.injEq] at h
      intro hx
      cases hx with
      | head => exact Or.inl h
      | tail _ hx => cases hx
  | a :: b :: l, r, hp, h, x => by
      rw [List.getLast?_cons_cons] at h
      intro hx
      rcases List.pairwise_cons.mp hp with ⟨ha, hp2⟩
      cases hx with
      | head => exact Or.inr (ha r (getLast?_mem' h))
      | tail _ hx => exact pairwise_getLast hp2 h x hx

theorem getLast?_filter {p : α → Bool} {l : List α} {r : α}
    (hl : l.getLast? = some r) (hr : p r = true) :
    (l.filter p).getLast? = some r := by
  rw [List.getLast?_eq_head?_reverse] at hl
  rw [List.getLast?_eq_head?_reverse, ← List.filter_reverse]
  cases hrev : l.reverse with
  | nil => rw [hrev] at hl; cases hl
  | cons y t =>
      rw [hrev] at hl
      simp only [List.head?_cons, Option.some.injEq] at hl
      rw [List.filter_cons, hl, if_pos hr]
      rfl

/-! ## Claims about `_merge_into_dw` -/

theorem mergeIntoDw_nonempty (w : Warehouse) (df : List FactRow)
    (h : df.isEmpty = false) :
    mergeIntoDw w df =
      ⟨true, true, none,
        (dedupBatch df).foldl upsertRow w.fact_transactions_incremental⟩ := by
  unfold mergeIntoDw
  rw [if_neg (by simp [h])]

theorem isEmpty_false_of_mem_dedupBatch {df : List FactRow} {r : FactRow}
    (hr : r ∈ dedupBatch df) : df.isEmpty = false := by
  cases df with
  | nil => cases hr
  | cons x l => rfl

/-- C9: calling `_merge_into_dw` with an empty batch returns before doing
anything: no schema or table creation, no staging table, no upsert — the
entire warehouse state (not just target rows) is unchanged. -/
theorem merge_into_dw_empty_batch_frame (w : Warehouse) : mergeIntoDw w [] = w := rfl

/-- C4: merging the same ChangeBatch twice yields the same target state as
merging it once (the upsert replaces each staged id with the same values
again, and the schema/staging bookkeeping is idempotent as well), for any
target state respecting the table's PRIMARY KEY. -/
theorem merge_into_dw_idempotent (w : Warehouse) (df : List FactRow)
    (h : uniqueIds w.fact_transactions_incremental) :
    mergeIntoDw (mergeIntoDw w df) df = mergeIntoDw w df := by
  cases hdf : df.isEmpty
  · rw [mergeIntoDw_nonempty w df hdf,
        mergeIntoDw_nonempty _ df hdf]
    have hfix :
        (dedupBatch df).foldl upsertRow
            ((dedupBatch df).foldl upsertRow w.fact_transactions_incremental) =
          (dedupBatch df).foldl upsertRow w.fact_transactions_incremental := by
      refine foldl_upsertRow_fixed (uniqueIds_foldl_upsertRow h (dedupBatch df)) ?_
      intro r hr
      exact getById_foldl_upsertRow_mem (nodup_ids_dedupBatch df) hr _
    rw [hfix]
  · have : df = [] := by
      cases df
      · rfl
      · cases hdf
    rw [this]
    rfl

/-- A concrete world for witnesses: one target row with id 1 and
version_timestamp 10. -/
def tgtRowV10 : FactRow :=
  { id := 1, id_cliente := 1, data_hora := 1000,
    metodo_pagamento := "card", version_timestamp := 10 }

/-- A staged change for the same id 1 whose version_timestamp 5 is strictly
older than the version already stored in the target. -/
def staleRowV5 : FactRow :=
  { id := 1, id_cliente := 2, data_hora := 2000,
    metodo_pagamento := "pix", version_timestamp := 5 }

def dwWithV10 : Warehouse :=
  { schemaExists := true, factTableExists := true, tmpIncrement := none,
    fact_transactions_incremental := [tgtRowV10] }

/-- C4 witness: idempotence evaluated at a concrete world and batch. -/
theorem merge_into_dw_idempotent_witness :
    mergeIntoDw (mergeIntoDw dwWithV10 [staleRowV5]) [staleRowV5] =
      mergeIntoDw dwWithV10 [staleRowV5] :=
  merge_into_dw_idempotent dwWithV10 [staleRowV5] (by constructor <;> simp)

/-- C1 counterexample: the upsert's `ON CONFLICT (id) DO UPDATE` has no
`WHERE` guard comparing version_timestamps, so a staged row whose
version_timestamp 5 is strictly older than the target row's stored
version 10 still overwrites the target row, contradicting the claim that
such a row leaves the target unchanged. -/
theorem merge_stale_version_overwrites_target :
    staleRowV5.version_timestamp < tgtRowV10.version_timestamp ∧
    staleRowV5.id = tgtRowV10.id ∧
    (mergeIntoDw dwWithV10 [staleRowV5]).fact_transactions_incremental = [staleRowV5] ∧
    (mergeIntoDw dwWithV10 [staleRowV5]).fact_transactions_incremental ≠ [tgtRowV10] := by
  refine ⟨by decide, by decide, ?_, ?_⟩
  · decide
  · decide

/-- C1 (amended): for every staged record surviving deduplication, the merge
unconditionally overwrites the target row with that id (or inserts it),
regardless of how its version_timestamp compares to the one already
stored — last merge wins, not last version. -/
theorem merge_upsert_unconditional_last_writer (w : Warehouse) (df : List FactRow)
    (r : FactRow) (hr : r ∈ dedupBatch df) :
    getById ((mergeIntoDw w df).fact_transactions_incremental) r.id = some r := by
  rw [mergeIntoDw_nonempty w df (isEmpty_false_of_mem_dedupBatch hr)]
  exact getById_foldl_upsertRow_mem (nodup_ids_dedupBatch df) hr _

/-- C1 (amended) witness: the stale staged row ends up stored. -/
theorem merge_upsert_unconditional_last_writer_witness :
    getById ((mergeIntoDw dwWithV10 [staleRowV5]).fact_transactions_incremental)
      staleRowV5.id = some staleRowV5 :=
  merge_upsert_unconditional_last_writer dwWithV10 [staleRowV5] staleRowV5 (by decide)

/-! ## C5: deduplication keeps the latest version per id -/

theorem factLE_trans (a b c : FactRow) (hab : factLE a b = true)
    (hbc : factLE b c = true) : factLE a c = true := by
  simp only [factLE, Bool.or_eq_true, Bool.and_eq_true, decide_eq_true_eq] at *
  omega

theorem factLE_total (a b : FactRow) : factLE a b = true ∨ factLE b a = true := by
  simp only [factLE, Bool.or_eq_true, Bool.and_eq_true, decide_eq_true_eq]
  omega

/-- C5: in a batch where an id occurs several times, deduplication keeps
exactly one record for it — a record of the batch carrying the maximum
version_timestamp for that id, and, among records tying at that maximum, the
one arriving last in the original batch order (the sort is stable and
`keep="last"` takes the final occurrence); the post-merge target state for
that id holds exactly the kept record. -/
theorem dedup_keeps_latest_version_per_id (df : List FactRow) (i : Nat)
    (hi : i ∈ df.map (fun r => r.id)) :
    ∃ r, (dedupBatch df).filter (fun x => x.id == i) = [r]
      ∧ r ∈ df ∧ r.id = i
      ∧ r.version_timestamp = maxVersionFor df i
      ∧ (df.filter
          (fun x => x.id == i && x.version_timestamp == maxVersionFor df i)).getLast?
          = some r
      ∧ ∀ w : Warehouse,
          getById ((mergeIntoDw w df).fact_transactions_incremental) i = some r := by
  rcases List.mem_map.mp hi with ⟨x0, hx0, hx0id⟩
  have hx0s : x0 ∈ (stableSort factLE df).filter (fun x => x.id == i) :=
    List.mem_filter.mpr ⟨(mem_stableSort factLE df x0).mpr hx0, by simp [hx0id]⟩
  have hne : (stableSort factLE df).filter (fun x => x.id == i) ≠ [] := by
    intro hnil
    rw [hnil] at hx0s
    cases hx0s
  have hsome := List.getLast?_isSome.mpr hne
  rcases hlast : ((stableSort factLE df).filter (fun x => x.id == i)).getLast? with _ | r
  · rw [hlast] at hsome
    cases hsome
  -- the row kept for id `i` is the last element of the sorted block for `i`
  have hfil : (dedupBatch df).filter (fun x => x.id == i) = [r] := by
    unfold dedupBatch
    rw [filter_dropDupKeepLast, hlast]
    rfl
  have hrs : r ∈ (stableSort factLE df).filter (fun x => x.id == i) := getLast?_mem' hlast
  have hrdf : r ∈ df := (mem_stableSort factLE df r).mp (List.mem_of_mem_filter hrs)
  have hrid : r.id = i := eq_of_beq (List.mem_filter.mp hrs).2
  have hperm : ((stableSort factLE df).filter (fun x => x.id == i)).Perm
      (df.filter (fun x => x.id == i)) :=
    (stableSort_perm factLE df).filter _
  have hpair : List.Pairwise (fun a b => factLE a b = true)
      ((stableSort factLE df).filter (fun x => x.id == i)) :=
    List.Pairwise.sublist (List.filter_sublist _)
      (pairwise_stableSort factLE factLE_trans factLE_total df)
  have hdom : ∀ x ∈ (stableSort factLE df).filter (fun x => x.id == i),
      x.version_timestamp ≤ r.version_timestamp := by
    intro x hx
    rcases pairwise_getLast hpair hlast x hx with h | h
    · rw [h]
    · have hxid : x.id = i := eq_of_beq (List.mem_filter.mp hx).2
      simp only [factLE, Bool.or_eq_true, Bool.and_eq_true, decide_eq_true_eq] at h
      omega
  have hmax : r.version_timestamp = maxVersionFor df i := by
    have hle : r.version_timestamp ≤ maxVersionFor df i := by
      refine mem_le_maxOfList ?_
      exact List.mem_map.mpr ⟨r, hperm.mem_iff.mp hrs, rfl⟩
    have hge : maxVersionFor df i ≤ r.version_timestamp := by
      have hvne : (df.filter (fun x => x.id == i)).map (fun r => r.version_timestamp) ≠ [] := by
        have hx0d : x0 ∈ df.filter (fun x => x.id == i) :=
          List.mem_filter.mpr ⟨hx0, by simp [hx0id]⟩
        intro hnil
        have := List.mem_map_of_mem (fun r : FactRow => r.version_timestamp) hx0d
        rw [hnil] at this
        cases this
      rcases List.mem_map.mp (maxOfList_mem hvne) with ⟨y, hy, hyv⟩
      rw [maxVersionFor, ← hyv]
      exact hdom y (hperm.mem_iff.mpr hy)
    exact le_antisymm hle hge
  -- tie-break: the kept row is the last arrival among the max-version rows
  have htie : (df.filter
      (fun x => x.id == i && x.version_timestamp == maxVersionFor df i)).getLast?
      = some r := by
    have hpr : (fun x : FactRow => x.id == i && x.version_timestamp == maxVersionFor df i) =
        fun x : FactRow =>
          (x.version_timestamp == maxVersionFor df i) && (x.id == i) := by
      funext z
      exact Bool.and_comm _ _
    have hstep1 :
        (((stableSort factLE df).filter (fun x => x.id == i)).filter
            (fun x => x.version_timestamp == maxVersionFor df i)).getLast? = some r := by
      refine getLast?_filter hlast ?_
      simp [hmax]
    rw [List.filter_filter] at hstep1
    have hstable : (stableSort factLE df).filter
        (fun x => (x.version_timestamp == maxVersionFor df i) && (x.id == i)) =
        df.filter (fun x => (x.version_timestamp == maxVersionFor df i) && (x.id == i)) := by
      refine filter_stableSort_ties factLE _ ?_ df
      intro x y hx hy
      simp only [Bool.and_eq_true, beq_iff_eq] at hx hy
      simp only [factLE, Bool.or_eq_true, Bool.and_eq_true, decide_eq_true_eq]
      omega
    rw [hstable] at hstep1
    rw [hpr]
    exact hstep1
  -- the merged target reflects exactly the kept record
  have hmerge : ∀ w : Warehouse,
      getById ((mergeIntoDw w df).fact_transactions_incremental) i = some r := by
    intro w
    have hrded : r ∈ dedupBatch df := by
      have : r ∈ (dedupBatch df).filter (fun x => x.id == i) := by
        rw [hfil]
        exact List.mem_cons_self _ _
      exact List.mem_of_mem_filter this
    have hdfne : df.isEmpty = false := by
      cases df
      · cases hrdf
      · rfl
    rw [mergeIntoDw_nonempty w df hdfne, ← hrid]
    exact getById_foldl_upsertRow_mem (nodup_ids_dedupBatch df) hrded _
  exact ⟨r, hfil, hrdf, hrid, hmax, htie, hmerge⟩

/-- The three arrivals of id 1 used in witnesses: versions 5, 7, 7 — a tie
at the maximum between the second and third arrivals. -/
def tieBatch : List FactRow :=
  [{ id := 1, id_cliente := 1, data_hora := 0, metodo_pagamento := "a",
     version_timestamp := 5 },
   { id := 1, id_cliente := 2, data_hora := 0, metodo_pagamento := "b",
     version_timestamp := 7 },
   { id := 1, id_cliente := 3, data_hora := 0, metodo_pagamento := "c",
     version_timestamp := 7 }]

/-- C5 witness: the claim evaluated on `tieBatch`. -/
theorem dedup_keeps_latest_version_per_id_witness :
    ∃ r, (dedupBatch tieBatch).filter (fun x => x.id == 1) = [r]
      ∧ r ∈ tieBatch ∧ r.id = 1
      ∧ r.version_timestamp = maxVersionFor tieBatch 1
      ∧ (tieBatch.filter
          (fun x => x.id == 1 && x.version_timestamp == maxVersionFor tieBatch 1)).getLast?
          = some r
      ∧ ∀ w : Warehouse,
          getById ((mergeIntoDw w tieBatch).fact_transactions_incremental) 1 = some r :=
  dedup_keeps_latest_version_per_id tieBatch 1 (by decide)

/-! ## C7: the extraction window -/

/-- C7: for every watermark `since`, `_fetch_increment` computes
`window_start = since - 2 days` and returns exactly the source records with
`data_hora >= window_start` (as a multiset, i.e. up to the reordering done
by ORDER BY), ordered ascending by `data_hora`. -/
theorem fetch_increment_window_filter_sorted (transacoes : List FactRow) (since : Int) :
    windowStart since = since - 2 * secondsPerDay
    ∧ (fetchIncrement transacoes since).Perm
        (transacoes.filter (fun r => decide (windowStart since ≤ r.data_hora)))
    ∧ (∀ r, r ∈ fetchIncrement transacoes since ↔
        r ∈ transacoes ∧ windowStart since ≤ r.data_hora)
    ∧ List.Pairwise (fun a b => a.data_hora ≤ b.data_hora)
        (fetchIncrement transacoes since) := by
  refine ⟨rfl, stableSort_perm _ _, ?_, ?_⟩
  · intro r
    unfold fetchIncrement
    rw [mem_stableSort, List.mem_filter]
    simp
  · have hp := pairwise_stableSort (fun a b : FactRow => decide (a.data_hora ≤ b.data_hora))
      (fun a b c hab hbc => by
        simp only [decide_eq_true_eq] at *
        omega)
      (fun a b => by
        simp only [decide_eq_true_eq]
        omega)
      (transacoes.filter (fun r => decide (windowStart since ≤ r.data_hora)))
    exact hp.imp (fun h => of_decide_eq_true h)

/-! ## C8: checkpoint discipline of `run` -/

/-- C8: in every pipeline cycle the checkpoint is saved at most once, and
only at the very end, after the merge completed; a failure in extraction or
merge, or an empty fetched batch, leaves the persisted watermark unchanged;
a successful cycle over a non-empty batch advances it to the maximum
`data_hora` of the batch. -/
theorem run_checkpoint_discipline (w : World) (fetchOk mergeOk : Bool) :
    ((runPipeline w fetchOk mergeOk).events.count RunEvent.saveCkpt ≤ 1)
    ∧ (RunEvent.saveCkpt ∈ (runPipeline w fetchOk mergeOk).events →
        (runPipeline w fetchOk mergeOk).events =
          [RunEvent.loadCkpt, RunEvent.fetchIncr, RunEvent.mergeDw, RunEvent.saveCkpt]
        ∧ (runPipeline w fetchOk mergeOk).ok = true)
    ∧ ((runPipeline w fetchOk mergeOk).ok = false →
        (runPipeline w fetchOk mergeOk).world.checkpoint = w.checkpoint)
    ∧ ((runPipeline w fetchOk mergeOk).ok = true →
        fetchIncrement w.transacoes (loadCheckpoint w) = [] →
        (runPipeline w fetchOk mergeOk).world.checkpoint = w.checkpoint)
    ∧ ((runPipeline w fetchOk mergeOk).ok = true →
        fetchIncrement w.transacoes (loadCheckpoint w) ≠ [] →
        (runPipeline w fetchOk mergeOk).world.checkpoint =
          some (maxDataHora (fetchIncrement w.transacoes (loadCheckpoint w)))
        ∧ RunEvent.saveCkpt ∈ (runPipeline w fetchOk mergeOk).events) := by
  cases fetchOk with
  | false => simp [runPipeline]
  | true =>
      cases mergeOk with
      | false => simp [runPipeline]
      | true =>
          cases hinc : (fetchIncrement w.transacoes (loadCheckpoint w)).isEmpty
          · have hne : fetchIncrement w.transacoes (loadCheckpoint w) ≠ [] := by
              intro h
              rw [h] at hinc
              cases hinc
            simp [runPipeline, hinc, hne]
          · have hnil : fetchIncrement w.transacoes (loadCheckpoint w) = [] :=
              List.isEmpty_iff.mp hinc
            simp [runPipeline, hinc, hnil]

/-- A concrete world for the C8 witness: no checkpoint yet, a single source
transaction. -/
def worldOneTx : World :=
  { checkpoint := none,
    transacoes := [{ id := 1, id_cliente := 1, data_hora := 100,
                     metodo_pagamento := "pix", version_timestamp := 1 }],
    warehouse := { schemaExists := false, factTableExists := false,
                   tmpIncrement := none, fact_transactions_incremental := [] } }

/-- C8 witness: a successful cycle over a non-empty batch advances the
checkpoint to the maximum `data_hora` and emits the save event. -/
theorem run_checkpoint_discipline_witness :
    (runPipeline worldOneTx true true).world.checkpoint =
      some (maxDataHora (fetchIncrement worldOneTx.transacoes (loadCheckpoint worldOneTx)))
    ∧ RunEvent.saveCkpt ∈ (runPipeline worldOneTx true true).events :=
  (run_checkpoint_discipline worldOneTx true true).2.2.2.2 (by decide) (by decide)

/-! ## C6: how `_save_checkpoint` replaces the watermark -/

/-- C6 counterexample: `_save_checkpoint` opens the checkpoint file itself
with mode "w" (in-place truncation) and performs no rename, so it is not
write-to-temp-then-rename; and a reader between the truncation and the
write observes a truncated file, which is neither the old watermark 100 nor
the new watermark 200 — the update is not atomic for readers. -/
theorem save_checkpoint_not_atomic :
    ¬ (atomicForReaders
          (fun p => if p = CHECKPOINT_FILE then FileContent.value 100 else FileContent.missing)
          (saveCheckpointOps 200) CHECKPOINT_FILE 200
        ∧ usesTempThenRename (saveCheckpointOps 200) CHECKPOINT_FILE) := by
  rintro ⟨hA, hT⟩
  have hmem : FileOp.openTruncate CHECKPOINT_FILE ∈ saveCheckpointOps 200 := by
    simp [saveCheckpointOps]
  exact hT.1 CHECKPOINT_FILE hmem rfl

/-- C6 (amended): `_save_checkpoint` replaces the persisted watermark by
truncating the checkpoint file in place and then writing the new value; no
temporary file and no rename are involved, the final state does hold the
new watermark, but in between a concurrent reader can observe a truncated
(partially written) checkpoint file. -/
theorem save_checkpoint_in_place_truncation (ts : Int) (fs0 : String → FileContent) :
    (FileOp.openTruncate CHECKPOINT_FILE ∈ saveCheckpointOps ts)
    ∧ (∀ src dst, FileOp.renameFile src dst ∉ saveCheckpointOps ts)
    ∧ ((saveCheckpointOps ts).foldl applyFileOp fs0) CHECKPOINT_FILE = FileContent.value ts
    ∧ (∃ g ∈ fsStates fs0 (saveCheckpointOps ts), g CHECKPOINT_FILE = FileContent.truncated) := by
  refine ⟨by simp [saveCheckpointOps], ?_, ?_, ?_⟩
  · intro src dst h
    simp [saveCheckpointOps] at h
  · simp [saveCheckpointOps, applyFileOp]
  · refine ⟨applyFileOp fs0 (FileOp.openTruncate CHECKPOINT_FILE), ?_, ?_⟩
    · simp [fsStates, saveCheckpointOps, List.scanl]
    · simp [applyFileOp]

/-- C6 (amended) witness: saving the watermark 200 over an empty file system
ends with the checkpoint file holding 200. -/
theorem save_checkpoint_in_place_truncation_witness :
    ((saveCheckpointOps 200).foldl applyFileOp
        (fun _ => FileContent.missing)) CHECKPOINT_FILE = FileContent.value 200 :=
  (save_checkpoint_in_place_truncation 200 (fun _ => FileContent.missing)).2.2.1

/-! ## SCD Type 2 on `warehouse.dim_products`
(`scd2_upsert_dim_products` in `src/etl/transform_pipeline.py`)

Run timestamps (`now = datetime.now(timezone.utc)`) are modelled as `Nat`
so that successive runs carry strictly increasing times. -/

structure SrcProduct where
  id : Nat
  nome : String
  categoria : String
  fornecedor : String
  preco : Int
deriving DecidableEq, Repr

structure DimRow where
  id : Nat
  nome : String
  categoria : String
  fornecedor : String
  preco : Int
  start_date : Nat
  end_date : Option Nat
  is_current : Bool
deriving DecidableEq, Repr

/-- A freshly inserted current version: `start_date = now`, `end_date = NaT`,
`is_current = True`. -/
def mkCurrent (now : Nat) (s : SrcProduct) : DimRow :=
  { id := s.id, nome := s.nome, categoria := s.categoria, fornecedor := s.fornecedor,
    preco := s.preco, start_date := now, end_date := none, is_current := true }

/-- The pandas left merge of the source snapshot with the current dimension
rows on `["id", "nome", "categoria", "fornecedor"]` (every key except
`preco`): each source row is paired with the `preco` of every matching
current row, or with `none` (`preco_cur` NaN) when no current row matches. -/
def mergeWithCurrent (src : List SrcProduct) (currentRows : List DimRow) :
    List (SrcProduct × Option Int) :=
  src.flatMap (fun s =>
    let ms := currentRows.filter (fun c =>
      c.id == s.id && c.nome == s.nome && c.categoria == s.categoria &&
        c.fornecedor == s.fornecedor)
    if ms.isEmpty then [(s, none)] else ms.map (fun c => (s, some c.preco)))

/-- The function `scd2_upsert_dim_products(engine, source_products)` as a transformation
of the `dim_products` row set.  Empty dimension: insert the whole snapshot
as current.  Otherwise: left-merge with the current rows, close every
current row of an id whose price changed (`end_date = now`,
`is_current = False`), and append new current versions for changed prices
and for brand new products. -/
def scd2Run (dim : List DimRow) (src : List SrcProduct) (now : Nat) : List DimRow :=
  if dim.isEmpty then src.map (mkCurrent now)
  else
    let currentRows := dim.filter (fun r => r.is_current)
    let merged := mergeWithCurrent src currentRows
    let changed_price := merged.filter (fun p => p.2.isSome && p.2 != some p.1.preco)
    let new_products := merged.filter (fun p => p.2.isNone)
    let changedIds := changed_price.map (fun p => p.1.id)
    (dim.map (fun r =>
        if changedIds.contains r.id && r.is_current then
          { r with end_date := some now, is_current := false }
        else r))
      ++ changed_price.map (fun p => mkCurrent now p.1)
      ++ new_products.map (fun p => mkCurrent now p.1)

/-- A sequence of SCD2 runs, each over its own source snapshot and run time. -/
def scd2Fold (dim : List DimRow) (runs : List (List SrcProduct × Nat)) : List DimRow :=
  runs.foldl (fun d p => scd2Run d p.1 p.2) dim

/-! ### The database operations and transaction boundaries of one SCD2 run

`scd2_upsert_dim_products` opens a transaction (`engine.begin()`) for the
UPDATEs that close current rows, but every insert goes through
`DataFrame.to_sql(..., engine, ...)` — bound to the engine, not to the open
transaction's connection — so each insert runs in its own separate
transaction. -/

inductive ScdOp where
  | ensureSchema
  | ensureDimTable
  | closeCurrent (id : Nat) (now : Nat)
  | insertRows (rows : List DimRow)
deriving DecidableEq, Repr

def isCloseOp : ScdOp → Bool
  | ScdOp.closeCurrent _ _ => true
  | _ => false

def isInsertOp : ScdOp → Bool
  | ScdOp.insertRows _ => true
  | _ => false

/-- The pandas `Series.unique()`: the distinct values in first-occurrence order. -/
def uniqueFirstAux : List Nat → List Nat → List Nat
  | _, [] => []
  | seen, x :: xs =>
      if seen.contains x then uniqueFirstAux seen xs
      else x :: uniqueFirstAux (x :: seen) xs

def uniqueFirst (l : List Nat) : List Nat := uniqueFirstAux [] l

/-- The transactions issued by one run of `scd2_upsert_dim_products`, each a
list of operations: the DDL transaction; then, for a non-empty dimension,
the `engine.begin()` transaction holding the close-current UPDATEs; and one
separate transaction per `to_sql` insert (bound to the engine, not to the
open connection). -/
def scd2Txns (dim : List DimRow) (src : List SrcProduct) (now : Nat) :
    List (List ScdOp) :=
  let ddl : List ScdOp := [ScdOp.ensureSchema, ScdOp.ensureDimTable]
  if dim.isEmpty then
    [ddl, [ScdOp.insertRows (src.map (mkCurrent now))]]
  else
    let currentRows := dim.filter (fun r => r.is_current)
    let merged := mergeWithCurrent src currentRows
    let changed_price := merged.filter (fun p => p.2.isSome && p.2 != some p.1.preco)
    let new_products := merged.filter (fun p => p.2.isNone)
    let updateTxn : List ScdOp :=
      (uniqueFirst (changed_price.map (fun p => p.1.id))).map
        (fun pid => ScdOp.closeCurrent pid now)
    [ddl, updateTxn]
      ++ (if changed_price.isEmpty then []
          else [[ScdOp.insertRows (changed_price.map (fun p => mkCurrent now p.1))]])
      ++ (if new_products.isEmpty then []
          else [[ScdOp.insertRows (new_products.map (fun p => mkCurrent now p.1))]])

def applyScdOp (dim : List DimRow) : ScdOp → List DimRow
  | ScdOp.ensureSchema => dim
  | ScdOp.ensureDimTable => dim
  | ScdOp.closeCurrent pid now =>
      dim.map (fun r =>
        if r.id == pid && r.is_current then
          { r with end_date := some now, is_current := false }
        else r)
  | ScdOp.insertRows rows => dim ++ rows

def applyScdTxns (dim : List DimRow) (txns : List (List ScdOp)) : List DimRow :=
  txns.foldl (fun d txn => txn.foldl applyScdOp d) dim

/-- C2 counterexample: the SCD2 merge joins on all of
`id, nome, categoria, fornecedor`, so when a tracked non-price attribute of
an existing product changes (here `nome` "A" to "B" for id 1), the source
row matches no current row, is treated as a brand-new product and inserted
as current WITHOUT closing the old current row: afterwards id 1 has two
rows with `is_current = true` and `end_date` null, contradicting the
single-current invariant. -/
theorem scd2_attribute_change_two_current_rows :
    ((scd2Fold []
        [([{ id := 1, nome := "A", categoria := "c", fornecedor := "f", preco := 10 }], 1),
         ([{ id := 1, nome := "B", categoria := "c", fornecedor := "f", preco := 10 }], 2)]).filter
        (fun r => r.id == 1 && r.is_current && r.end_date == none)).length = 2 := by
  decide

/-- The dimension and snapshot of the spec's price-change example: id 5's
price changes from 9.99 to 12.99 (here in cents). -/
def dimWidget : List DimRow :=
  [{ id := 5, nome := "Widget", categoria := "cat", fornecedor := "forn",
     preco := 999, start_date := 10, end_date := none, is_current := true }]

def priceChangeSnap : List SrcProduct :=
  [{ id := 5, nome := "Widget", categoria := "cat", fornecedor := "forn", preco := 1299 }]

/-- C3: on the spec's price-change input the run does close the old current
row and insert the new current one, leaving exactly 2 rows for id 5 — but
the close (an UPDATE on the `engine.begin()` connection) and the insert
(`to_sql` bound to the engine, i.e. its own connection) never share a
transaction, contradicting "in one transaction". -/
theorem scd2_price_change_split_transactions :
    (∃ txn ∈ scd2Txns dimWidget priceChangeSnap 20, ∃ op ∈ txn, isCloseOp op = true)
    ∧ (∃ txn ∈ scd2Txns dimWidget priceChangeSnap 20, ∃ op ∈ txn, isInsertOp op = true)
    ∧ (∀ txn ∈ scd2Txns dimWidget priceChangeSnap 20,
        ¬ ((∃ op ∈ txn, isCloseOp op = true) ∧ (∃ op ∈ txn, isInsertOp op = true)))
    ∧ scd2Run dimWidget priceChangeSnap 20 =
        [{ id := 5, nome := "Widget", categoria := "cat", fornecedor := "forn",
           preco := 999, start_date := 10, end_date := some 20, is_current := false },
         { id := 5, nome := "Widget", categoria := "cat", fornecedor := "forn",
           preco := 1299, start_date := 20, end_date := none, is_current := true }]
    ∧ applyScdTxns dimWidget (scd2Txns dimWidget priceChangeSnap 20) =
        scd2Run dimWidget priceChangeSnap 20
    ∧ ((scd2Run dimWidget priceChangeSnap 20).filter (fun r => r.id == 5)).length = 2 := by
  decide

/-! ### The transaction trace and the state transformer agree -/

theorem mem_uniqueFirstAux (a : Nat) :
    ∀ (l seen : List Nat), a ∈ uniqueFirstAux seen l ↔ a ∈ l ∧ a ∉ seen := by
  intro l
  induction l with
  | nil => intro seen; simp [uniqueFirstAux]
  | cons x xs ih =>
      intro seen
      unfold uniqueFirstAux
      by_cases hx : seen.contains x = true
      · rw [if_pos hx, ih seen]
        have hxseen : x ∈ seen := List.elem_iff.mp hx
        constructor
        · rintro ⟨h1, h2⟩
          exact ⟨List.mem_cons_of_mem x h1, h2⟩
        · rintro ⟨h1, h2⟩
          cases h1 with
          | head => exact absurd hxseen h2
          | tail _ h1 => exact ⟨h1, h2⟩
      · rw [if_neg hx]
        constructor
        · intro h
          cases h with
          | head =>
              refine ⟨List.mem_cons_self _ _, fun hmem => hx (List.elem_iff.mpr hmem)⟩
          | tail _ h =>
              rcases (ih (x :: seen)).mp h with ⟨h1, h2⟩
              refine ⟨List.mem_cons_of_mem x h1, fun hmem => h2 (List.mem_cons_of_mem x hmem)⟩
        · rintro ⟨h1, h2⟩
          cases h1 with
          | head => exact List.mem_cons_self _ _
          | tail _ h1 =>
              by_cases hax : a = x
              · rw [hax]; exact List.mem_cons_self _ _
              · refine List.mem_cons_of_mem x ((ih (x :: seen)).mpr ⟨h1, ?_⟩)
                intro hmem
                cases hmem with
                | head => exact hax rfl
                | tail _ hmem => exact h2 hmem

theorem contains_uniqueFirst (l : List Nat) (a : Nat) :
    (uniqueFirst l).contains a = l.contains a := by
  have hiff : a ∈ uniqueFirst l ↔ a ∈ l := by
    rw [show uniqueFirst l = uniqueFirstAux [] l from rfl, mem_uniqueFirstAux a l []]
    simp
  cases hu : (uniqueFirst l).contains a <;> cases hl : l.contains a <;> try rfl
  · have h1 : a ∈ uniqueFirst l := hiff.mpr (List.elem_iff.mp hl)
    have h2 : (uniqueFirst l).contains a = true := List.elem_iff.mpr h1
    rw [hu] at h2
    cases h2
  · have h1 : a ∈ l := hiff.mp (List.elem_iff.mp hu)
    have h2 : l.contains a = true := List.elem_iff.mpr h1
    rw [hl] at h2
    cases h2

theorem closeOne_then_closeSet (now : Nat) (x : Nat) (ids : List Nat) (r : DimRow) :
    (fun r : DimRow =>
        if ids.contains r.id && r.is_current then
          { r with end_date := some now, is_current := false } else r)
      ((fun r : DimRow =>
        if r.id == x && r.is_current then
          { r with end_date := some now, is_current := false } else r) r) =
    (if (x :: ids).contains r.id && r.is_current then
        { r with end_date := some now, is_current := false } else r) := by
  cases hcur : r.is_current
  · simp [hcur]
  · cases hx : (r.id == x :)
    · have hne : ¬ r.id = x := fun h => by simp [h] at hx
      simp [hx, hcur, List.contains_cons, hne]
    · have hid : r.id = x := eq_of_beq hx
      simp [hx, hcur, List.contains_cons, hid]

/-- The close-current UPDATE loop of one run, folded over the list of
changed ids, closes exactly the current rows whose id is in that list. -/
theorem foldl_closeTxn (now : Nat) :
    ∀ (ids : List Nat) (dim : List DimRow),
      (ids.map (fun pid => ScdOp.closeCurrent pid now)).foldl applyScdOp dim =
        dim.map (fun r =>
          if ids.contains r.id && r.is_current then
            { r with end_date := some now, is_current := false } else r) := by
  intro ids
  induction ids with
  | nil =>
      intro dim
      simp only [List.map_nil, List.foldl_nil]
      have h1 : ∀ r ∈ dim,
          (if ([] : List Nat).contains r.id && r.is_current then
            { r with end_date := some now, is_current := false } else r) = id r := by
        intro r hr
        simp [List.contains_nil]
      rw [List.map_congr_left h1, List.map_id]
  | cons x ids ih =>
      intro dim
      rw [List.map_cons, List.foldl_cons, ih]
      show (applyScdOp dim (ScdOp.closeCurrent x now)).map _ = _
      show (dim.map fun r =>
          if r.id == x && r.is_current then
            { r with end_date := some now, is_current := false } else r).map _ = _
      rw [List.map_map]
      refine List.map_congr_left ?_
      intro r hr
      exact closeOne_then_closeSet now x ids r

/-- The two optional `to_sql` insert transactions append the changed-price
rows and the new-product rows. -/
theorem applyScdTxns_inserts (d : List DimRow) (ch np : List (SrcProduct × Option Int))
    (now : Nat) :
    List.foldl (fun d txn => txn.foldl applyScdOp d) d
      ((if ch.isEmpty then []
        else [[ScdOp.insertRows (ch.map (fun p => mkCurrent now p.1))]])
       ++ (if np.isEmpty then []
        else [[ScdOp.insertRows (np.map (fun p => mkCurrent now p.1))]]))
    = d ++ ch.map (fun p => mkCurrent now p.1) ++ np.map (fun p => mkCurrent now p.1) := by
  cases hch : ch.isEmpty
  · cases hnp : np.isEmpty
    · simp [applyScdOp, List.append_assoc]
    · rw [List.isEmpty_iff.mp hnp]
      simp [applyScdOp]
  · rw [List.isEmpty_iff.mp hch]
    cases hnp : np.isEmpty
    · simp [applyScdOp]
    · rw [List.isEmpty_iff.mp hnp]
      simp [applyScdOp]

/-- Replaying the transaction trace of one SCD2 run on the dimension row set
produces exactly the state transformer `scd2Run`: the embedding of the
transaction boundaries and the embedding of the end state agree. -/
theorem applyScdTxns_scd2Txns (dim : List DimRow) (src : List SrcProduct) (now : Nat) :
    applyScdTxns dim (scd2Txns dim src now) = scd2Run dim src now := by
  unfold applyScdTxns scd2Txns scd2Run
  cases hdim : dim.isEmpty
  · rw [if_neg (by simp [hdim]), if_neg (by simp [hdim])]
    rw [List.foldl_append, List.foldl_append]
    have hddl : List.foldl (fun d txn => List.foldl applyScdOp d txn) dim
        [[ScdOp.ensureSchema, ScdOp.ensureDimTable],
         (uniqueFirst ((mergeWithCurrent src (dim.filter (fun r => r.is_current))).filter
            (fun p => p.2.isSome && p.2 != some p.1.preco) |>.map (fun p => p.1.id))).map
            (fun pid => ScdOp.closeCurrent pid now)] =
        dim.map (fun r =>
          if ((mergeWithCurrent src (dim.filter (fun r => r.is_current))).filter
                (fun p => p.2.isSome && p.2 != some p.1.preco) |>.map
                (fun p => p.1.id)).contains r.id && r.is_current then
            { r with end_date := some now, is_current := false } else r) := by
      show List.foldl applyScdOp dim _ = _
      rw [foldl_closeTxn]
      refine List.map_congr_left ?_
      intro r hr
      rw [contains_uniqueFirst]
    rw [hddl, ← List.foldl_append, applyScdTxns_inserts]
  · rw [if_pos (by simp [hdim]), if_pos (by simp [hdim])]
    have hdim2 : dim = [] := List.isEmpty_iff.mp hdim
    simp [hdim2, applyScdOp]

/-! ### The SCD2 single-current invariant -/

/-- The current rows of the dimension for one natural key. -/
def curFor (dim : List DimRow) (i : Nat) : List DimRow :=
  dim.filter (fun r => r.id == i && r.is_current)

/-- Membership of a point in a row's validity range `[start_date, end_date)`
(an open `end_date` meaning "until further notice"). -/
def inRange (r : DimRow) (x : Nat) : Prop :=
  r.start_date ≤ x ∧ ∀ e ∈ r.end_date, x < e

def overlaps (a b : DimRow) : Prop := ∃ x, inRange a x ∧ inRange b x

/-- One row ends (with a concrete `end_date`) no later than the other
starts. -/
def rowsDisjoint (a b : DimRow) : Prop :=
  (∃ e, a.end_date = some e ∧ e ≤ b.start_date) ∨
    (∃ e, b.end_date = some e ∧ e ≤ a.start_date)

theorem not_overlaps_of_rowsDisjoint {a b : DimRow} (h : rowsDisjoint a b) :
    ¬ overlaps a b := by
  rintro ⟨x, ⟨has, hae⟩, ⟨hbs, hbe⟩⟩
  rcases h with ⟨e, he, hle⟩ | ⟨e, he, hle⟩
  · have := hae e he
    omega
  · have := hbe e he
    omega

/-- A well-formed source snapshot: one row per product id, and the tracked
non-price attributes are a function of the id (the same product keeps its
`nome`, `categoria`, `fornecedor` across snapshots — only `preco` varies). -/
def snapOK (attrs : Nat → String × String × String) (src : List SrcProduct) : Prop :=
  (src.map (fun s => s.id)).Nodup ∧
    ∀ s ∈ src, (s.nome, s.categoria, s.fornecedor) = attrs s.id

/-- The dimension invariant: every date lies below `bound`; attributes are
determined by the id; a row is current iff its `end_date` is open; every id
present has exactly one current row; and rows of the same id have disjoint
validity ranges. -/
structure DimInv (attrs : Nat → String × String × String)
    (dim : List DimRow) (bound : Nat) : Prop where
  dates : ∀ r ∈ dim, r.start_date < bound ∧ ∀ e ∈ r.end_date, e < bound
  attrsOK : ∀ r ∈ dim, (r.nome, r.categoria, r.fornecedor) = attrs r.id
  curOpen : ∀ r ∈ dim, (r.is_current = true ↔ r.end_date = none)
  oneCur : ∀ i ∈ dim.map (fun r => r.id), (curFor dim i).length = 1
  ordered : List.Pairwise (fun a b => a.id = b.id → rowsDisjoint a b) dim

theorem length_filter_id_of_nodup {src : List SrcProduct}
    (h : (src.map (fun s => s.id)).Nodup) {i : Nat}
    (hi : i ∈ src.map (fun s => s.id)) :
    (src.filter (fun s => s.id == i)).length = 1 := by
  induction src with
  | nil => cases hi
  | cons x xs ih =>
      rw [List.map_cons, List.nodup_cons] at h
      rw [List.filter_cons]
      by_cases hx : x.id = i
      · rw [if_pos (by simp [hx])]
        have hnil : xs.filter (fun s => s.id == i) = [] := by
          rw [List.filter_eq_nil_iff]
          intro s hs hsi
          exact h.1 (hx ▸ (eq_of_beq hsi) ▸ List.mem_map_of_mem (fun s => s.id) hs)
        rw [hnil]
        rfl
      · rw [if_neg (by simp [hx])]
        rcases List.mem_map.mp hi with ⟨s, hs, hsi⟩
        cases hs with
        | head => exact absurd hsi hx
        | tail _ hs => exact ih h.2 (hsi ▸ List.mem_map_of_mem (fun s => s.id) hs)

theorem filter_id_eq_nil {src : List SrcProduct} {i : Nat}
    (hi : i ∉ src.map (fun s => s.id)) :
    src.filter (fun s => s.id == i) = [] := by
  rw [List.filter_eq_nil_iff]
  intro s hs hsi
  exact hi ((eq_of_beq hsi) ▸ List.mem_map_of_mem (fun s => s.id) hs)

theorem curFor_singleton {attrs : Nat → String × String × String}
    {dim : List DimRow} {bound : Nat} (hI : DimInv attrs dim bound) {i : Nat}
    (hi : i ∈ dim.map (fun r => r.id)) :
    ∃ c, curFor dim i = [c] ∧ c ∈ dim ∧ c.id = i ∧ c.is_current = true := by
  rcases List.length_eq_one.mp (hI.oneCur i hi) with ⟨c, hc⟩
  have hcmem : c ∈ curFor dim i := by
    rw [hc]
    exact List.mem_cons_self _ _
  rcases List.mem_filter.mp hcmem with ⟨hcd, hcp⟩
  simp only [Bool.and_eq_true, beq_iff_eq] at hcp
  exact ⟨c, hc, hcd, hcp.1, hcp.2⟩

theorem curFor_nil {dim : List DimRow} {i : Nat}
    (hi : i ∉ dim.map (fun r => r.id)) : curFor dim i = [] := by
  rw [curFor, List.filter_eq_nil_iff]
  intro r hr hrp
  simp only [Bool.and_eq_true, beq_iff_eq] at hrp
  exact hi (hrp.1 ▸ List.mem_map_of_mem (fun r => r.id) hr)

/-- The `preco` of the current dimension row for an id, when there is one
(`preco_cur` of the pandas merge). -/
def curPreco (dim : List DimRow) (i : Nat) : Option Int :=
  ((curFor dim i).head?).map (fun c => c.preco)

/-- Predicate on a source row: a current row exists and its price differs
(the `changed_price` filter of the merge). -/
def changedB (dim : List DimRow) (s : SrcProduct) : Bool :=
  (curPreco dim s.id).isSome && curPreco dim s.id != some s.preco

/-- Predicate on a source row: no current row matched (`preco_cur` is NaN,
the `new_products` filter of the merge). -/
def newB (dim : List DimRow) (s : SrcProduct) : Bool :=
  (curPreco dim s.id).isNone

theorem filter_match4_eq {attrs : Nat → String × String × String} (dim : List DimRow)
    (s : SrcProduct)
    (hattrs : ∀ r ∈ dim, (r.nome, r.categoria, r.fornecedor) = attrs r.id)
    (hs : (s.nome, s.categoria, s.fornecedor) = attrs s.id) :
    (dim.filter (fun r => r.is_current)).filter (fun c =>
        c.id == s.id && c.nome == s.nome && c.categoria == s.categoria &&
          c.fornecedor == s.fornecedor) = curFor dim s.id := by
  rw [List.filter_filter]
  refine List.filter_congr ?_
  intro c hc
  cases hcid : (c.id == s.id :)
  · simp [hcid]
  · have hceq : c.id = s.id := eq_of_beq hcid
    have h3 := hattrs c hc
    rw [hceq, ← hs] at h3
    rw [Prod.ext_iff, Prod.ext_iff] at h3
    simp only [] at h3
    simp [hcid, h3.1, h3.2.1, h3.2.2]

theorem mergeWithCurrent_eq {attrs : Nat → String × String × String}
    {dim : List DimRow} {bound : Nat} (hI : DimInv attrs dim bound)
    (src : List SrcProduct)
    (hsrc : ∀ s ∈ src, (s.nome, s.categoria, s.fornecedor) = attrs s.id) :
    mergeWithCurrent src (dim.filter (fun r => r.is_current)) =
      src.map (fun s => (s, curPreco dim s.id)) := by
  induction src with
  | nil => rfl
  | cons s src ih =>
      show (let ms := (dim.filter (fun r => r.is_current)).filter (fun c =>
              c.id == s.id && c.nome == s.nome && c.categoria == s.categoria &&
                c.fornecedor == s.fornecedor)
            if ms.isEmpty then [(s, (none : Option Int))]
            else ms.map (fun c => (s, some c.preco)))
          ++ mergeWithCurrent src (dim.filter (fun r => r.is_current)) = _
      rw [ih (fun t ht => hsrc t (List.mem_cons_of_mem s ht))]
      rw [List.map_cons]
      show (let ms := (dim.filter (fun r => r.is_current)).filter (fun c =>
              c.id == s.id && c.nome == s.nome && c.categoria == s.categoria &&
                c.fornecedor == s.fornecedor)
            if ms.isEmpty then [(s, (none : Option Int))]
            else ms.map (fun c => (s, some c.preco)))
          ++ _ = _
      rw [show ((dim.filter (fun r => r.is_current)).filter (fun c =>
              c.id == s.id && c.nome == s.nome && c.categoria == s.categoria &&
                c.fornecedor == s.fornecedor)) = curFor dim s.id from
            filter_match4_eq dim s hI.attrsOK (hsrc s (List.mem_cons_self s src))]
      by_cases hmem : s.id ∈ dim.map (fun r => r.id)
      · rcases curFor_singleton hI hmem with ⟨c, hc, _, _, _⟩
        rw [hc]
        simp [curPreco, hc]
      · rw [curFor_nil hmem]
        simp [curPreco, curFor_nil hmem]

/-- Closing a current row whose id is in the changed set. -/
def closeIf (ids : List Nat) (now : Nat) (r : DimRow) : DimRow :=
  if ids.contains r.id && r.is_current then
    { r with end_date := some now, is_current := false } else r

theorem closeIf_spec (ids : List Nat) (now : Nat) (r : DimRow) :
    ((ids.contains r.id && r.is_current) = false ∧ closeIf ids now r = r) ∨
    (ids.contains r.id = true ∧ r.is_current = true ∧
      closeIf ids now r = { r with end_date := some now, is_current := false }) := by
  cases h : (ids.contains r.id && r.is_current :)
  · refine Or.inl ⟨rfl, ?_⟩
    unfold closeIf
    rw [if_neg (by rw [h]; simp)]
  · rcases (show ids.contains r.id = true ∧ r.is_current = true by simpa using h) with ⟨h1, h2⟩
    refine Or.inr ⟨h1, h2, ?_⟩
    unfold closeIf
    rw [if_pos h]

theorem closeIf_id (ids : List Nat) (now : Nat) (r : DimRow) :
    (closeIf ids now r).id = r.id := by
  unfold closeIf
  split <;> rfl

/-- The ids of the source rows whose price changed (`changed_price["id"]`). -/
def chIds (dim : List DimRow) (src : List SrcProduct) : List Nat :=
  (src.filter (changedB dim)).map (fun s => s.id)

theorem scd2Run_char {attrs : Nat → String × String × String}
    {dim : List DimRow} {bound : Nat} (hI : DimInv attrs dim bound)
    (hdim : dim ≠ []) (src : List SrcProduct) (now : Nat)
    (hsrc : ∀ s ∈ src, (s.nome, s.categoria, s.fornecedor) = attrs s.id) :
    scd2Run dim src now =
      dim.map (closeIf (chIds dim src) now)
      ++ (src.filter (changedB dim)).map (mkCurrent now)
      ++ (src.filter (newB dim)).map (mkCurrent now) := by
  unfold scd2Run
  rw [if_neg (by simp [List.isEmpty_iff, hdim])]
  simp only [mergeWithCurrent_eq hI src hsrc, List.filter_map, List.map_map]
  rfl

theorem changedB_spec {attrs : Nat → String × String × String}
    {dim : List DimRow} {bound : Nat} (hI : DimInv attrs dim bound)
    {s : SrcProduct} (h : changedB dim s = true) :
    s.id ∈ dim.map (fun r => r.id) ∧
      ∃ c, curFor dim s.id = [c] ∧ c ∈ dim ∧ c.id = s.id ∧ c.is_current = true ∧
        c.preco ≠ s.preco := by
  unfold changedB at h
  rcases (show (curPreco dim s.id).isSome = true ∧ (curPreco dim s.id != some s.preco) = true
    by simpa using h) with ⟨h1, h2⟩
  have hsid : s.id ∈ dim.map (fun r => r.id) := by
    rcases Option.isSome_iff_exists.mp h1 with ⟨v, hv⟩
    unfold curPreco at hv
    cases hcf : curFor dim s.id with
    | nil => rw [hcf] at hv; cases hv
    | cons c0 t =>
        have hc0 : c0 ∈ curFor dim s.id := by
          rw [hcf]
          exact List.mem_cons_self _ _
        rcases List.mem_filter.mp hc0 with ⟨hc0dim, hc0p⟩
        simp only [Bool.and_eq_true, beq_iff_eq] at hc0p
        exact hc0p.1 ▸ List.mem_map_of_mem (fun r => r.id) hc0dim
  rcases curFor_singleton hI hsid with ⟨c, hc, hcdim, hcid, hccur⟩
  refine ⟨hsid, c, hc, hcdim, hcid, hccur, ?_⟩
  unfold curPreco at h2
  rw [hc] at h2
  simp only [List.head?_cons, Option.map_some'] at h2
  intro heq
  rw [heq] at h2
  simp at h2

theorem newB_spec {attrs : Nat → String × String × String}
    {dim : List DimRow} {bound : Nat} (hI : DimInv attrs dim bound)
    {s : SrcProduct} (h : newB dim s = true) :
    s.id ∉ dim.map (fun r => r.id) := by
  intro hmem
  rcases curFor_singleton hI hmem with ⟨c, hc, _⟩
  unfold newB curPreco at h
  rw [hc] at h
  simp at h

theorem not_newB_of_changedB {dim : List DimRow} {s : SrcProduct}
    (h : changedB dim s = true) : newB dim s = false := by
  unfold changedB at h
  rcases (show (curPreco dim s.id).isSome = true ∧ (curPreco dim s.id != some s.preco) = true
    by simpa using h) with ⟨h1, _⟩
  unfold newB
  cases hp : (curPreco dim s.id) with
  | none => rw [hp] at h1; cases h1
  | some v => rfl

theorem contains_eq_false_of_not_mem {l : List Nat} {i : Nat} (h : i ∉ l) :
    l.contains i = false := by
  cases hc : l.contains i
  · rfl
  · exact absurd (List.elem_iff.mp hc) h

theorem mem_chIds {dim : List DimRow} {src : List SrcProduct} {i : Nat} :
    i ∈ chIds dim src ↔ ∃ s, (s ∈ src ∧ changedB dim s = true) ∧ s.id = i := by
  unfold chIds
  simp [List.mem_filter]

theorem chIds_sub {attrs : Nat → String × String × String} {dim : List DimRow}
    {bound : Nat} (hI : DimInv attrs dim bound) {src : List SrcProduct} {i : Nat}
    (hi : i ∈ chIds dim src) : i ∈ dim.map (fun r => r.id) := by
  rcases mem_chIds.mp hi with ⟨s, ⟨hssrc, hch⟩, rfl⟩
  exact (changedB_spec hI hch).1

theorem curFor_map_closeIf_of_mem {dim : List DimRow} {ids : List Nat} {now i : Nat}
    (hin : i ∈ ids) : curFor (dim.map (closeIf ids now)) i = [] := by
  unfold curFor
  rw [List.filter_map]
  rw [show (dim.filter ((fun r => r.id == i && r.is_current) ∘ closeIf ids now)) = []
    from ?_, List.map_nil]
  rw [List.filter_eq_nil_iff]
  intro t ht hp
  simp only [Function.comp, Bool.and_eq_true, beq_iff_eq, closeIf_id] at hp
  rcases closeIf_spec ids now t with ⟨hcond, heq⟩ | ⟨_, _, heq⟩
  · rw [heq] at hp
    have hcont : ids.contains t.id = true := List.elem_iff.mpr (hp.1 ▸ hin)
    rw [hcont] at hcond
    rw [hp.2] at hcond
    cases hcond
  · rw [heq] at hp
    cases hp.2

theorem curFor_map_closeIf_of_not_mem {dim : List DimRow} {ids : List Nat} {now i : Nat}
    (hout : i ∉ ids) : curFor (dim.map (closeIf ids now)) i = curFor dim i := by
  unfold curFor
  rw [List.filter_map]
  have h1 : ∀ t ∈ dim, ((fun r => r.id == i && r.is_current) ∘ closeIf ids now) t =
      (t.id == i && t.is_current) := by
    intro t ht
    rcases closeIf_spec ids now t with ⟨_, heq⟩ | ⟨hcont, hcur, heq⟩
    · simp only [Function.comp, heq]
    · simp only [Function.comp, heq]
      show (t.id == i && false) = (t.id == i && t.is_current)
      cases hti : (t.id == i :)
      · simp
      · have : t.id = i := eq_of_beq hti
        have : i ∈ ids := this ▸ List.elem_iff.mp hcont
        exact absurd this hout
  rw [List.filter_congr h1]
  have h2 : ∀ t ∈ dim.filter (fun t => t.id == i && t.is_current),
      closeIf ids now t = id t := by
    intro t ht
    rcases List.mem_filter.mp ht with ⟨_, hp⟩
    simp only [Bool.and_eq_true, beq_iff_eq] at hp
    have hcont : ids.contains t.id = false := contains_eq_false_of_not_mem (hp.1 ▸ hout)
    unfold closeIf
    rw [hcont]
    simp
  rw [List.map_congr_left h2, List.map_id]

theorem curFor_mkCurrent_map (l : List SrcProduct) (now i : Nat) :
    curFor (l.map (mkCurrent now)) i = (l.filter (fun s => s.id == i)).map (mkCurrent now) := by
  unfold curFor
  rw [List.filter_map]
  congr 1
  refine List.filter_congr ?_
  intro t ht
  simp [mkCurrent, Function.comp]

theorem nodup_filter_src_ids {src : List SrcProduct}
    (h : (src.map (fun s => s.id)).Nodup) (q : SrcProduct → Bool) :
    ((src.filter q).map (fun s => s.id)).Nodup :=
  List.Nodup.sublist (List.Sublist.map _ (List.filter_sublist src)) h

theorem scd2Run_inv_nil {attrs : Nat → String × String × String}
    {src : List SrcProduct} {now : Nat} (hs : snapOK attrs src) :
    DimInv attrs (scd2Run [] src now) (now + 1) := by
  rw [show scd2Run [] src now = src.map (mkCurrent now) from rfl]
  refine ⟨?_, ?_, ?_, ?_, ?_⟩
  · intro r hr
    rcases List.mem_map.mp hr with ⟨t, ht, rfl⟩
    exact ⟨Nat.lt_succ_self now, by intro e he; cases he⟩
  · intro r hr
    rcases List.mem_map.mp hr with ⟨t, ht, rfl⟩
    exact hs.2 t ht
  · intro r hr
    rcases List.mem_map.mp hr with ⟨t, ht, rfl⟩
    simp [mkCurrent]
  · intro i hi
    rw [curFor_mkCurrent_map, List.length_map]
    refine length_filter_id_of_nodup hs.1 ?_
    rw [List.map_map] at hi
    simpa using hi
  · refine List.pairwise_map.mpr ?_
    have hnd : List.Pairwise (fun a b : SrcProduct => a.id ≠ b.id) src :=
      List.pairwise_map.mp hs.1
    refine hnd.imp ?_
    intro a b hab hid
    exact absurd hid hab

theorem scd2Run_inv_cons {attrs : Nat → String × String × String}
    {dim : List DimRow} {bound : Nat} (hI : DimInv attrs dim bound)
    (hdim : dim ≠ []) {src : List SrcProduct} {now : Nat}
    (hb : bound ≤ now) (hs : snapOK attrs src) :
    DimInv attrs (scd2Run dim src now) (now + 1) := by
  rw [scd2Run_char hI hdim src now hs.2]
  refine ⟨?_, ?_, ?_, ?_, ?_⟩
  · -- dates
    intro r hr
    rcases List.mem_append.mp hr with hr1 | hrN
    · rcases List.mem_append.mp hr1 with hrD | hrC
      · rcases List.mem_map.mp hrD with ⟨t, ht, rfl⟩
        rcases closeIf_spec (chIds dim src) now t with ⟨_, heq⟩ | ⟨_, _, heq⟩
        · rw [heq]
          rcases hI.dates t ht with ⟨h1, h2⟩
          refine ⟨by omega, ?_⟩
          intro e he
          have := h2 e he
          omega
        · rw [heq]
          rcases hI.dates t ht with ⟨h1, h2⟩
          constructor
          · show t.start_date < now + 1
            omega
          · intro e he
            rw [Option.mem_def] at he
            have h3 : some now = some e := he
            injection h3 with h4
            omega
      · rcases List.mem_map.mp hrC with ⟨t, ht, rfl⟩
        exact ⟨Nat.lt_succ_self now, by intro e he; cases he⟩
    · rcases List.mem_map.mp hrN with ⟨t, ht, rfl⟩
      exact ⟨Nat.lt_succ_self now, by intro e he; cases he⟩
  · -- attrsOK
    intro r hr
    rcases List.mem_append.mp hr with hr1 | hrN
    · rcases List.mem_append.mp hr1 with hrD | hrC
      · rcases List.mem_map.mp hrD with ⟨t, ht, rfl⟩
        rcases closeIf_spec (chIds dim src) now t with ⟨_, heq⟩ | ⟨_, _, heq⟩ <;>
          rw [heq] <;> exact hI.attrsOK t ht
      · rcases List.mem_map.mp hrC with ⟨t, ht, rfl⟩
        exact hs.2 t (List.mem_of_mem_filter ht)
    · rcases List.mem_map.mp hrN with ⟨t, ht, rfl⟩
      exact hs.2 t (List.mem_of_mem_filter ht)
  · -- curOpen
    intro r hr
    rcases List.mem_append.mp hr with hr1 | hrN
    · rcases List.mem_append.mp hr1 with hrD | hrC
      · rcases List.mem_map.mp hrD with ⟨t, ht, rfl⟩
        rcases closeIf_spec (chIds dim src) now t with ⟨_, heq⟩ | ⟨_, _, heq⟩
        · rw [heq]
          exact hI.curOpen t ht
        · rw [heq]
          simp
      · rcases List.mem_map.mp hrC with ⟨t, ht, rfl⟩
        simp [mkCurrent]
    · rcases List.mem_map.mp hrN with ⟨t, ht, rfl⟩
      simp [mkCurrent]
  · -- oneCur
    intro i hi
    have hsplit : ∀ (A B C : List DimRow), (curFor (A ++ B ++ C) i).length =
        (curFor A i).length + (curFor B i).length + (curFor C i).length := by
      intro A B C
      unfold curFor
      rw [List.filter_append, List.filter_append, List.length_append, List.length_append]
    rw [hsplit, curFor_mkCurrent_map, curFor_mkCurrent_map]
    by_cases hin : i ∈ chIds dim src
    · rw [curFor_map_closeIf_of_mem hin]
      have h1 : ((src.filter (changedB dim)).filter (fun s => s.id == i)).length = 1 :=
        length_filter_id_of_nodup (nodup_filter_src_ids hs.1 _) hin
      rw [List.filter_filter] at h1
      have h2 : ((src.filter (newB dim)).filter (fun s => s.id == i)) = [] := by
        rw [List.filter_eq_nil_iff]
        intro t ht hti
        have hni := newB_spec hI (List.mem_filter.mp ht).2
        exact hni ((eq_of_beq hti) ▸ chIds_sub hI hin)
      rw [h2]
      simp [h1]
    · by_cases hdim_i : i ∈ dim.map (fun r => r.id)
      · rw [curFor_map_closeIf_of_not_mem hin]
        have h1 := hI.oneCur i hdim_i
        have h2 : ((src.filter (changedB dim)).filter (fun s => s.id == i)) = [] := by
          rw [List.filter_eq_nil_iff]
          intro t ht hti
          refine hin (mem_chIds.mpr ⟨t, ?_, eq_of_beq hti⟩)
          exact ⟨(List.mem_filter.mp ht).1, (List.mem_filter.mp ht).2⟩
        have h3 : ((src.filter (newB dim)).filter (fun s => s.id == i)) = [] := by
          rw [List.filter_eq_nil_iff]
          intro t ht hti
          exact newB_spec hI (List.mem_filter.mp ht).2 ((eq_of_beq hti) ▸ hdim_i)
        rw [h2, h3]
        simp [h1]
      · have h0 : curFor (dim.map (closeIf (chIds dim src) now)) i = [] := by
          unfold curFor
          rw [List.filter_eq_nil_iff]
          intro t ht hp
          rcases List.mem_map.mp ht with ⟨u, hu, rfl⟩
          simp only [Bool.and_eq_true, beq_iff_eq, closeIf_id] at hp
          exact hdim_i (hp.1 ▸ List.mem_map_of_mem (fun r => r.id) hu)
        have h2 : ((src.filter (changedB dim)).filter (fun s => s.id == i)) = [] := by
          rw [List.filter_eq_nil_iff]
          intro t ht hti
          refine hin (mem_chIds.mpr ⟨t, ?_, eq_of_beq hti⟩)
          exact ⟨(List.mem_filter.mp ht).1, (List.mem_filter.mp ht).2⟩
        have hiN : i ∈ (src.filter (newB dim)).map (fun s => s.id) := by
          rcases List.mem_map.mp hi with ⟨r, hr, rfl⟩
          rcases List.mem_append.mp hr with hr1 | hrN
          · rcases List.mem_append.mp hr1 with hrD | hrC
            · rcases List.mem_map.mp hrD with ⟨t, ht, rfl⟩
              exact absurd ((closeIf_id _ _ t) ▸ List.mem_map_of_mem (fun r => r.id) ht)
                hdim_i
            · rcases List.mem_map.mp hrC with ⟨t, ht, rfl⟩
              exact absurd (List.mem_map_of_mem (fun s => s.id) ht) hin
          · rcases List.mem_map.mp hrN with ⟨t, ht, rfl⟩
            exact List.mem_map_of_mem (fun s => s.id) ht
        have h3 : ((src.filter (newB dim)).filter (fun s => s.id == i)).length = 1 :=
          length_filter_id_of_nodup (nodup_filter_src_ids hs.1 _) hiN
        rw [List.filter_filter] at h3
        rw [h0, h2]
        simp [h3]
  · -- ordered
    refine List.pairwise_append.mpr ⟨List.pairwise_append.mpr ⟨?_, ?_, ?_⟩, ?_, ?_⟩
    · -- within the closed dimension rows
      refine List.pairwise_map.mpr ?_
      refine List.Pairwise.imp_of_mem ?_ hI.ordered
      intro a b hamem hbmem hR hid
      rw [closeIf_id, closeIf_id] at hid
      have hD := hR hid
      rcases closeIf_spec (chIds dim src) now a with ⟨_, ha⟩ | ⟨hac, hacur, ha⟩ <;>
        rcases closeIf_spec (chIds dim src) now b with ⟨_, hbeq⟩ | ⟨hbc, hbcur, hbeq⟩
      · rw [ha, hbeq]
        exact hD
      · rw [ha, hbeq]
        by_cases hcur : a.is_current = true
        · exfalso
          have hae := (hI.curOpen a hamem).mp hcur
          have hbe := (hI.curOpen b hbmem).mp hbcur
          rcases hD with ⟨e, he, _⟩ | ⟨e, he, _⟩
          · rw [hae] at he; cases he
          · rw [hbe] at he; cases he
        · rcases hD with ⟨e, he, hle⟩ | ⟨e, he, hle⟩
          · exact Or.inl ⟨e, he, hle⟩
          · exfalso
            rw [(hI.curOpen b hbmem).mp hbcur] at he
            cases he
      · rw [ha, hbeq]
        by_cases hcur : b.is_current = true
        · exfalso
          have hae := (hI.curOpen a hamem).mp hacur
          have hbe := (hI.curOpen b hbmem).mp hcur
          rcases hD with ⟨e, he, _⟩ | ⟨e, he, _⟩
          · rw [hae] at he; cases he
          · rw [hbe] at he; cases he
        · rcases hD with ⟨e, he, hle⟩ | ⟨e, he, hle⟩
          · exfalso
            rw [(hI.curOpen a hamem).mp hacur] at he
            cases he
          · exact Or.inr ⟨e, he, hle⟩
      · exfalso
        have hae := (hI.curOpen a hamem).mp hacur
        have hbe := (hI.curOpen b hbmem).mp hbcur
        rcases hD with ⟨e, he, _⟩ | ⟨e, he, _⟩
        · rw [hae] at he; cases he
        · rw [hbe] at he; cases he
    · -- within the changed-price inserts
      refine List.pairwise_map.mpr ?_
      have hnd : List.Pairwise (fun a b : SrcProduct => a.id ≠ b.id)
          (src.filter (changedB dim)) :=
        List.pairwise_map.mp (nodup_filter_src_ids hs.1 _)
      refine hnd.imp ?_
      intro a b hab hid
      exact absurd hid hab
    · -- closed dimension rows against changed-price inserts
      intro a ha b hb
      rcases List.mem_map.mp ha with ⟨t, ht, rfl⟩
      rcases List.mem_map.mp hb with ⟨u, hu, rfl⟩
      intro hid
      rw [closeIf_id] at hid
      have hid2 : t.id = u.id := hid
      have huid : u.id ∈ chIds dim src := List.mem_map_of_mem (fun s => s.id) hu
      rcases closeIf_spec (chIds dim src) now t with ⟨hcond, heq⟩ | ⟨_, _, heq⟩
      · rw [heq]
        have hcont : (chIds dim src).contains t.id = true := by
          refine List.elem_iff.mpr ?_
          rw [hid2]
          exact huid
        have hcurf : t.is_current = false := by
          cases hcc : t.is_current
          · rfl
          · rw [hcont, hcc] at hcond
            cases hcond
        have hend : ∃ e, t.end_date = some e := by
          cases hte : t.end_date with
          | none => exact absurd ((hI.curOpen t ht).mpr hte) (by rw [hcurf]; simp)
          | some e => exact ⟨e, rfl⟩
        rcases hend with ⟨e, hte⟩
        refine Or.inl ⟨e, hte, ?_⟩
        have h5 := (hI.dates t ht).2 e (Option.mem_def.mpr hte)
        show e ≤ now
        omega
      · rw [heq]
        exact Or.inl ⟨now, rfl, le_refl now⟩
    · -- within the new-product inserts
      refine List.pairwise_map.mpr ?_
      have hnd : List.Pairwise (fun a b : SrcProduct => a.id ≠ b.id)
          (src.filter (newB dim)) :=
        List.pairwise_map.mp (nodup_filter_src_ids hs.1 _)
      refine hnd.imp ?_
      intro a b hab hid
      exact absurd hid hab
    · -- everything earlier against new-product inserts
      intro a ha b hb
      rcases List.mem_map.mp hb with ⟨u, hu, rfl⟩
      have hunot : u.id ∉ dim.map (fun r => r.id) :=
        newB_spec hI (List.mem_filter.mp hu).2
      rcases List.mem_append.mp ha with haD | haC
      · rcases List.mem_map.mp haD with ⟨t, ht, rfl⟩
        intro hid
        rw [closeIf_id] at hid
        have hid2 : t.id = u.id := hid
        exact absurd (hid2 ▸ List.mem_map_of_mem (fun r => r.id) ht) hunot
      · rcases List.mem_map.mp haC with ⟨t, ht, rfl⟩
        intro hid
        have hid2 : t.id = u.id := hid
        have htid : t.id ∈ dim.map (fun r => r.id) :=
          (changedB_spec hI (List.mem_filter.mp ht).2).1
        exact absurd (hid2 ▸ htid) hunot

theorem scd2Run_inv {attrs : Nat → String × String × String}
    {dim : List DimRow} {bound : Nat} (hI : DimInv attrs dim bound)
    {src : List SrcProduct} {now : Nat} (hb : bound ≤ now) (hs : snapOK attrs src) :
    DimInv attrs (scd2Run dim src now) (now + 1) := by
  by_cases hdim : dim = []
  · subst hdim
    exact scd2Run_inv_nil hs
  · exact scd2Run_inv_cons hI hdim hb hs

/-- Run times start at or after `b` and strictly increase along the list. -/
def timesIncreasingFrom : Nat → List (List SrcProduct × Nat) → Prop
  | _, [] => True
  | b, p :: ps => b ≤ p.2 ∧ timesIncreasingFrom (p.2 + 1) ps

theorem scd2Fold_inv {attrs : Nat → String × String × String} :
    ∀ (runs : List (List SrcProduct × Nat)) (dim : List DimRow) (bound : Nat),
      DimInv attrs dim bound → timesIncreasingFrom bound runs →
      (∀ p ∈ runs, snapOK attrs p.1) →
      ∃ b2, DimInv attrs (scd2Fold dim runs) b2 := by
  intro runs
  induction runs with
  | nil =>
      intro dim bound hI _ _
      exact ⟨bound, hI⟩
  | cons p runs ih =>
      intro dim bound hI htimes hsnap
      rcases htimes with ⟨hb, htimes2⟩
      refine ih (scd2Run dim p.1 p.2) (p.2 + 1) ?_ htimes2
        (fun q hq => hsnap q (List.mem_cons_of_mem p hq))
      exact scd2Run_inv hI hb (hsnap p (List.mem_cons_self p runs))

theorem dimInv_nil (attrs : Nat → String × String × String) : DimInv attrs [] 0 := by
  constructor
  · intro r hr
    cases hr
  · intro r hr
    cases hr
  · intro r hr
    cases hr
  · intro i hi
    cases hi
  · exact List.Pairwise.nil

/-- C2 (amended): for every natural key present in the dimension, after any
sequence of SCD2 runs at strictly increasing run times whose snapshots have
one row per id and keep `nome`, `categoria`, `fornecedor` fixed per id (only
`preco` varies — the join closes rows only on price changes), exactly one
row for that key is current with a null `end_date`, every non-current row
for that key has a non-null `end_date`, and no two rows for the same key
have overlapping `[start_date, end_date)` ranges. -/
theorem scd2_single_current_invariant (attrs : Nat → String × String × String)
    (runs : List (List SrcProduct × Nat))
    (hsnap : ∀ p ∈ runs, snapOK attrs p.1)
    (htimes : timesIncreasingFrom 0 runs) :
    (∀ i ∈ (scd2Fold [] runs).map (fun r => r.id),
       ((scd2Fold [] runs).filter (fun r => r.id == i && r.is_current)).length = 1
       ∧ (∀ r ∈ scd2Fold [] runs, r.id = i → r.is_current = true → r.end_date = none)
       ∧ (∀ r ∈ scd2Fold [] runs, r.id = i → r.is_current = false → r.end_date ≠ none))
    ∧ List.Pairwise (fun a b => a.id = b.id → ¬ overlaps a b) (scd2Fold [] runs) := by
  rcases scd2Fold_inv runs [] 0 (dimInv_nil attrs) htimes hsnap with ⟨b2, hI⟩
  constructor
  · intro i hi
    refine ⟨hI.oneCur i hi, ?_, ?_⟩
    · intro r hr _ hcur
      exact (hI.curOpen r hr).mp hcur
    · intro r hr _ hncur hnone
      have := (hI.curOpen r hr).mpr hnone
      rw [hncur] at this
      cases this
  · refine hI.ordered.imp ?_
    intro a b hab hid
    exact not_overlaps_of_rowsDisjoint (hab hid)

/-- C2 (amended) witness: two runs over id 1 (price 10 then price 12, same
name/category/supplier) at times 1 and 3. -/
theorem scd2_single_current_invariant_witness :
    (∀ i ∈ (scd2Fold []
        [([{ id := 1, nome := "A", categoria := "c", fornecedor := "f", preco := 10 }], 1),
         ([{ id := 1, nome := "A", categoria := "c", fornecedor := "f", preco := 12 }], 3)]).map
          (fun r => r.id),
       ((scd2Fold []
        [([{ id := 1, nome := "A", categoria := "c", fornecedor := "f", preco := 10 }], 1),
         ([{ id := 1, nome := "A", categoria := "c", fornecedor := "f", preco := 12 }], 3)]).filter
          (fun r => r.id == i && r.is_current)).length = 1
       ∧ (∀ r ∈ scd2Fold []
        [([{ id := 1, nome := "A", categoria := "c", fornecedor := "f", preco := 10 }], 1),
         ([{ id := 1, nome := "A", categoria := "c", fornecedor := "f", preco := 12 }], 3)],
          r.id = i → r.is_current = true → r.end_date = none)
       ∧ (∀ r ∈ scd2Fold []
        [([{ id := 1, nome := "A", categoria := "c", fornecedor := "f", preco := 10 }], 1),
         ([{ id := 1, nome := "A", categoria := "c", fornecedor := "f", preco := 12 }], 3)],
          r.id = i → r.is_current = false → r.end_date ≠ none))
    ∧ List.Pairwise (fun a b => a.id = b.id → ¬ overlaps a b)
        (scd2Fold []
        [([{ id := 1, nome := "A", categoria := "c", fornecedor := "f", preco := 10 }], 1),
         ([{ id := 1, nome := "A", categoria := "c", fornecedor := "f", preco := 12 }], 3)]) :=
  scd2_single_current_invariant (fun _ => ("A", "c", "f")) _
    (by intro p hp
        cases hp with
        | head => exact ⟨by decide, by decide⟩
        | tail _ hp =>
            cases hp with
            | head => exact ⟨by decide, by decide⟩
            | tail _ hp => cases hp)
    (by exact ⟨by omega, by omega, trivial⟩)

/-! ## Configuration validation (`config/config_loader.py`)

YAML scalar values are modelled as null, string, integer or boolean; a key
that is absent from the parsed dictionary is `none`. -/

inductive YVal where
  | vnull
  | vstr (s : String)
  | vint (n : Int)
  | vbool (b : Bool)
deriving DecidableEq, Repr

/-- Python `str(v)` for the scalar values we model. -/
def strOf : YVal → String
  | YVal.vnull => "None"
  | YVal.vstr s => s
  | YVal.vint n => toString n
  | YVal.vbool b => if b then "True" else "False"

def isPrefixCh : List Char → List Char → Bool
  | [], _ => true
  | _ :: _, [] => false
  | a :: as, b :: bs => a == b && isPrefixCh as bs

/-- Substring containment on character lists (Python `pat in s`). -/
def containsSub (pat : List Char) : List Char → Bool
  | [] => isPrefixCh pat []
  | c :: rest => isPrefixCh pat (c :: rest) || containsSub pat rest

/-- Python `"MISSING:" in str(v)`. -/
def containsMissing (v : YVal) : Bool :=
  containsSub ("MISSING:".toList) (strOf v).toList

structure DbSection where
  host : Option YVal
  port : Option YVal
  name : Option YVal
  user : Option YVal
  password : Option YVal
deriving DecidableEq, Repr

structure Config where
  environment : Option YVal
  debug : Option YVal
  log_level : Option YVal
  db_schema : Option YVal
  aws_region : Option YVal
  s3_bucket : Option YVal
  database : Option DbSection
deriving DecidableEq, Repr

/-- Python `k not in cfg or cfg[k] in (None, "")`, on the value if present. -/
def isNoneOrEmpty : Option YVal → Bool
  | none => true
  | some v => v == YVal.vnull || v == YVal.vstr ""

/-- The per-key test of `missing_db`: absent, None/empty, or still carrying
the `<MISSING:...>` placeholder sentinel. -/
def dbFieldBad : Option YVal → Bool
  | none => true
  | some v => isNoneOrEmpty (some v) || containsMissing v

/-- The list `missing_top` of `_validate_config`: the required top-level keys that are
absent or empty (the `database` key is modelled as `none` when absent or
None/empty). -/
def missingTop (c : Config) : List String :=
  (([("environment", c.environment), ("debug", c.debug), ("log_level", c.log_level),
     ("db_schema", c.db_schema), ("aws_region", c.aws_region),
     ("s3_bucket", c.s3_bucket)]).filter (fun p => isNoneOrEmpty p.2)).map (fun p => p.1)
  ++ (if c.database.isNone then ["database"] else [])

/-- The list `missing_db` of `_validate_config`. -/
def missingDb (db : DbSection) : List String :=
  (([("host", db.host), ("port", db.port), ("name", db.name), ("user", db.user),
     ("password", db.password)]).filter (fun p => dbFieldBad p.2)).map
    (fun p => "database." ++ p.1)

/-- The function `_validate_config` followed by `get_config`: the result is `true` when
validation passes and `get_config` returns the dictionary, `false` when any
check fails and the process exits via `sys.exit(1)`. -/
def validateConfig (c : Config) : Bool :=
  if !(missingTop c).isEmpty then false
  else if !(missingDb (c.database.getD ⟨none, none, none, none, none⟩)).isEmpty then false
  else if containsMissing (c.s3_bucket.getD YVal.vnull) then false
  else true

/-- The property `_validate_config` actually enforces on the top level. -/
def topPresent (c : Config) : Prop :=
  isNoneOrEmpty c.environment = false ∧ isNoneOrEmpty c.debug = false ∧
    isNoneOrEmpty c.log_level = false ∧ isNoneOrEmpty c.db_schema = false ∧
    isNoneOrEmpty c.aws_region = false ∧ isNoneOrEmpty c.s3_bucket = false ∧
    c.database.isSome = true

/-- The property `_validate_config` actually enforces on the `database`
section. -/
def dbValid (db : DbSection) : Prop :=
  dbFieldBad db.host = false ∧ dbFieldBad db.port = false ∧
    dbFieldBad db.name = false ∧ dbFieldBad db.user = false ∧
    dbFieldBad db.password = false

theorem missingTop_eq_nil_iff (c : Config) :
    missingTop c = [] ↔
      (isNoneOrEmpty c.environment = false ∧ isNoneOrEmpty c.debug = false ∧
       isNoneOrEmpty c.log_level = false ∧ isNoneOrEmpty c.db_schema = false ∧
       isNoneOrEmpty c.aws_region = false ∧ isNoneOrEmpty c.s3_bucket = false ∧
       c.database.isSome = true) := by
  unfold missingTop
  cases h1 : isNoneOrEmpty c.environment <;> cases h2 : isNoneOrEmpty c.debug <;>
    cases h3 : isNoneOrEmpty c.log_level <;> cases h4 : isNoneOrEmpty c.db_schema <;>
    cases h5 : isNoneOrEmpty c.aws_region <;> cases h6 : isNoneOrEmpty c.s3_bucket <;>
    cases h7 : c.database <;>
    simp [h1, h2, h3, h4, h5, h6, h7, List.filter_cons]

theorem missingDb_eq_nil_iff (db : DbSection) :
    missingDb db = [] ↔ dbValid db := by
  unfold missingDb dbValid
  cases h1 : dbFieldBad db.host <;> cases h2 : dbFieldBad db.port <;>
    cases h3 : dbFieldBad db.name <;> cases h4 : dbFieldBad db.user <;>
    cases h5 : dbFieldBad db.password <;>
    simp [h1, h2, h3, h4, h5, List.filter_cons]

/-- C10 (amended): `get_config` returns a dictionary exactly when every
required top-level key is present and non-empty, the `database` section has
all five keys present, non-empty and free of the `<MISSING:...>` sentinel,
and `s3_bucket` is free of the sentinel.  The sentinel is NOT checked on
the other top-level values, so a returned config can still carry unresolved
placeholders, e.g. in `aws_region`. -/
theorem validateConfig_iff (c : Config) :
    validateConfig c = true ↔
      topPresent c ∧ (∀ db, c.database = some db → dbValid db) ∧
        containsMissing (c.s3_bucket.getD YVal.vnull) = false := by
  unfold validateConfig
  split_ifs with hA hB hC
  · constructor
    · intro h
      exact h.elim
    · rintro ⟨htop, _, _⟩
      have h1 : missingTop c = [] := (missingTop_eq_nil_iff c).mpr htop
      rw [h1] at hA
      exact absurd hA (by simp)
  · constructor
    · intro h
      exact h.elim
    · rintro ⟨htop, hdbv, _⟩
      have htop2 : isNoneOrEmpty c.environment = false ∧ isNoneOrEmpty c.debug = false ∧
          isNoneOrEmpty c.log_level = false ∧ isNoneOrEmpty c.db_schema = false ∧
          isNoneOrEmpty c.aws_region = false ∧ isNoneOrEmpty c.s3_bucket = false ∧
          c.database.isSome = true := htop
      rcases Option.isSome_iff_exists.mp htop2.2.2.2.2.2.2 with ⟨db, hdb⟩
      rw [hdb] at hB
      have h2 : missingDb db = [] := (missingDb_eq_nil_iff db).mpr (hdbv db hdb)
      rw [Option.getD_some, h2] at hB
      exact absurd hB (by simp)
  · constructor
    · intro h
      exact h.elim
    · rintro ⟨_, _, hs3⟩
      rw [hs3] at hC
      exact Bool.noConfusion hC
  · constructor
    · intro _
      have hAe : (missingTop c).isEmpty = true := by
        cases hmt : (missingTop c).isEmpty
        · exact absurd (by rw [hmt]; rfl) hA
        · rfl
      have h1 : missingTop c = [] := List.isEmpty_iff.mp hAe
      have htop : topPresent c := (missingTop_eq_nil_iff c).mp h1
      have hBe : (missingDb (c.database.getD ⟨none, none, none, none, none⟩)).isEmpty
          = true := by
        cases hmd : (missingDb (c.database.getD ⟨none, none, none, none, none⟩)).isEmpty
        · exact absurd (by rw [hmd]; rfl) hB
        · rfl
      have hCf : containsMissing (c.s3_bucket.getD YVal.vnull) = false := by
        cases hcm : containsMissing (c.s3_bucket.getD YVal.vnull)
        · rfl
        · exact absurd hcm hC
      refine ⟨htop, ?_, hCf⟩
      intro db hdb
      rw [hdb, Option.getD_some] at hBe
      exact (missingDb_eq_nil_iff db).mp (List.isEmpty_iff.mp hBe)
    · intro _
      rfl

/-- A configuration whose `aws_region` still carries the unresolved
`<MISSING:AWS_REGION>` placeholder while everything the validator checks is
fine. -/
def cfgPlaceholder : Config :=
  { environment := some (YVal.vstr "dev"), debug := some (YVal.vbool true),
    log_level := some (YVal.vstr "INFO"), db_schema := some (YVal.vstr "ecommerce"),
    aws_region := some (YVal.vstr "<MISSING:AWS_REGION>"),
    s3_bucket := some (YVal.vstr "my-bucket"),
    database := some { host := some (YVal.vstr "localhost"),
                       port := some (YVal.vint 5432),
                       name := some (YVal.vstr "db"),
                       user := some (YVal.vstr "u"),
                       password := some (YVal.vstr "p") } }

/-- C10 counterexample: `_validate_config` checks the `<MISSING:...>`
sentinel only on the `database` values and on `s3_bucket`; a config whose
`aws_region` is the unresolved placeholder `<MISSING:AWS_REGION>` passes
validation, so `get_config` returns it — contradicting the claim that no
returned value contains the sentinel. -/
theorem config_unresolved_placeholder_returned :
    validateConfig cfgPlaceholder = true ∧
      containsMissing (cfgPlaceholder.aws_region.getD YVal.vnull) = true := by
  constructor
  · decide
  · decide

/-- C10 (amended) witness: the amended characterisation evaluated at the
placeholder-carrying configuration. -/
theorem validateConfig_iff_witness :
    topPresent cfgPlaceholder ∧
      (∀ db, cfgPlaceholder.database = some db → dbValid db) ∧
      containsMissing (cfgPlaceholder.s3_bucket.getD YVal.vnull) = false :=
  (validateConfig_iff cfgPlaceholder).mp (by decide)
